import Mathlib

/-!
Verification of `json_escape.py` (Pie-Loup/snowflake_functions).

The program is a linear pipeline:
  `json.loads` → `json.dumps(data, separators=(',', ':'))` →
  `compact_json.replace('\\n', '\\\\n')` → optional verify → output.

This file gives a shallow embedding of that pipeline:
* `pyReplace` models Python `str.replace(old, new)` for a nonempty pattern
  (a single left-to-right, non-overlapping pass);
* `Json`, `serializeJson` model the document tree and the compact
  `json.dumps` serialization (`ensure_ascii=True`, separators `,` / `:`);
  numbers are modelled as integers (`float` values are outside the model);
* `parseValue` models `json.loads` (strict mode) as a fuel-indexed
  recursive-descent parser;
* `runMain` models the `main` function as a pure function from an
  environment (input source, flags, clipboard availability) to an outcome
  (exit code, stdout lines, stderr lines).

All definitions are structurally recursive (fuel-indexed where the source
loops on a shrinking string), so every concrete run evaluates by `rfl` /
`decide`.
-/

/-! ### Python `str.replace`, `str.count` and `str.split`, on `List Char` -/

/-- Tests whether `pat` occurs at the very start of `l`. -/
def headMatches : List Char → List Char → Bool
  | [], _ => true
  | _ :: _, [] => false
  | p :: ps, c :: cs => p == c && headMatches ps cs

/-- Fuel-indexed worker for `pyReplace`.  One unit of fuel is spent per
character examined, so fuel `l.length` always suffices. -/
def replaceAux (pat rep : List Char) : Nat → List Char → List Char
  | _, [] => []
  | 0, l => l
  | fuel + 1, c :: cs =>
    if !pat.isEmpty && headMatches pat (c :: cs) then
      rep ++ replaceAux pat rep fuel (cs.drop (pat.length - 1))
    else
      c :: replaceAux pat rep fuel cs

/-- Model of Python `text.replace(pat, rep)` for a nonempty `pat`: scan the
text left to right and replace each (non-overlapping) occurrence of `pat`
by `rep`.  (The Python corner case of an empty pattern is never used by the
program and is not modelled.) -/
def pyReplace (pat rep l : List Char) : List Char :=
  replaceAux pat rep l.length l

/-- String-level wrapper for `pyReplace`, mirroring `s.replace(pat, rep)`. -/
def pyStrReplace (s pat rep : String) : String :=
  String.mk (pyReplace pat.data rep.data s.data)

/-- Fuel-indexed worker for `pyCount`. -/
def countAux (pat : List Char) : Nat → List Char → Nat
  | _, [] => 0
  | 0, _ => 0
  | fuel + 1, c :: cs =>
    if !pat.isEmpty && headMatches pat (c :: cs) then
      countAux pat fuel (cs.drop (pat.length - 1)) + 1
    else
      countAux pat fuel cs

/-- Number of occurrences of `pat` found by the same left-to-right
non-overlapping scan that `pyReplace` performs (Python `str.count`). -/
def pyCount (pat l : List Char) : Nat :=
  countAux pat l.length l

/-- Fuel-indexed worker for `pySplit`. -/
def splitAux (pat : List Char) : Nat → List Char → List (List Char)
  | _, [] => [[]]
  | 0, l => [l]
  | fuel + 1, c :: cs =>
    if !pat.isEmpty && headMatches pat (c :: cs) then
      [] :: splitAux pat fuel (cs.drop (pat.length - 1))
    else
      match splitAux pat fuel cs with
      | [] => [[c]]
      | g :: gs => (c :: g) :: gs

/-- Model of Python `text.split(pat)` for a nonempty `pat`: the fragments of
the text between the occurrences of `pat` found by a left-to-right
non-overlapping scan. -/
def pySplit (pat l : List Char) : List (List Char) :=
  splitAux pat l.length l

/-- Joins a list of fragments, inserting `sep` between consecutive ones
(Python `sep.join(fragments)`). -/
def joinWith (sep : List Char) : List (List Char) → List Char
  | [] => []
  | [g] => g
  | g :: g' :: gs => g ++ sep ++ joinWith sep (g' :: gs)

/-- The two-character pattern `\n` (backslash, letter n) searched for on
line 55 of `json_escape.py` (Python literal `'\\n'`). -/
def nlPat : List Char := ['\\', 'n']

/-- The three-character replacement `\\n` (backslash, backslash, letter n)
inserted on line 55 of `json_escape.py` (Python literal `'\\\\n'`). -/
def nlRep : List Char := ['\\', '\\', 'n']

/-- Line 55 of `json_escape.py`:
`escaped_json = compact_json.replace('\\n', '\\\\n')`. -/
def escapeNewlines (l : List Char) : List Char :=
  pyReplace nlPat nlRep l

/-- Line 144 of `json_escape.py` (the verification step's inverse
substitution): `verify_json = escaped_json.replace('\\\\n', '\\n')`. -/
def unescapeNewlines (l : List Char) : List Char :=
  pyReplace nlRep nlPat l

/-! ### Basic facts about `replaceAux` / `countAux` / `splitAux` -/

theorem replaceAux_fuel (pat rep : List Char) :
    ∀ fuel₁ fuel₂ l, l.length ≤ fuel₁ → l.length ≤ fuel₂ →
      replaceAux pat rep fuel₁ l = replaceAux pat rep fuel₂ l := by
  intro fuel₁
  induction fuel₁ with
  | zero =>
    intro fuel₂ l h₁ _
    have : l = [] := List.length_eq_zero.mp (Nat.le_zero.mp h₁)
    subst this
    cases fuel₂ <;> rfl
  | succ f₁ ih =>
    intro fuel₂ l h₁ h₂
    cases l with
    | nil => cases fuel₂ <;> rfl
    | cons c cs =>
      cases fuel₂ with
      | zero => simp at h₂
      | succ f₂ =>
        simp only [replaceAux]
        by_cases hm : (!pat.isEmpty && headMatches pat (c :: cs)) = true
        · simp only [hm, if_pos]
          have hd : (cs.drop (pat.length - 1)).length ≤ cs.length := by
            simp [List.length_drop]
          have h₁' : (cs.drop (pat.length - 1)).length ≤ f₁ := by
            simp at h₁; omega
          have h₂' : (cs.drop (pat.length - 1)).length ≤ f₂ := by
            simp at h₂; omega
          rw [ih _ _ h₁' h₂']
        · simp only [hm, if_neg, Bool.false_eq_true, not_false_iff]
          have h₁' : cs.length ≤ f₁ := by simp at h₁; omega
          have h₂' : cs.length ≤ f₂ := by simp at h₂; omega
          rw [ih _ _ h₁' h₂']

theorem pyReplace_nil (pat rep : List Char) : pyReplace pat rep [] = [] := rfl

theorem pyReplace_cons_match (pat rep : List Char) (c : Char) (cs : List Char)
    (hne : pat ≠ []) (hm : headMatches pat (c :: cs) = true) :
    pyReplace pat rep (c :: cs) =
      rep ++ pyReplace pat rep (cs.drop (pat.length - 1)) := by
  have hem : pat.isEmpty = false := by
    cases pat with
    | nil => exact absurd rfl hne
    | cons p ps => rfl
  unfold pyReplace
  simp only [List.length_cons, replaceAux, hem, hm, Bool.not_false, Bool.and_self, if_pos]
  rw [replaceAux_fuel pat rep cs.length (cs.drop (pat.length - 1)).length
    (cs.drop (pat.length - 1)) (by simp [List.length_drop]) (le_refl _)]

theorem pyReplace_cons_nomatch (pat rep : List Char) (c : Char) (cs : List Char)
    (hm : headMatches pat (c :: cs) = false) :
    pyReplace pat rep (c :: cs) = c :: pyReplace pat rep cs := by
  unfold pyReplace
  simp only [List.length_cons, replaceAux, hm, Bool.and_false, Bool.false_eq_true,
    not_false_iff, if_neg]

theorem countAux_fuel (pat : List Char) :
    ∀ fuel₁ fuel₂ l, l.length ≤ fuel₁ → l.length ≤ fuel₂ →
      countAux pat fuel₁ l = countAux pat fuel₂ l := by
  intro fuel₁
  induction fuel₁ with
  | zero =>
    intro fuel₂ l h₁ _
    have : l = [] := List.length_eq_zero.mp (Nat.le_zero.mp h₁)
    subst this
    cases fuel₂ <;> rfl
  | succ f₁ ih =>
    intro fuel₂ l h₁ h₂
    cases l with
    | nil => cases fuel₂ <;> rfl
    | cons c cs =>
      cases fuel₂ with
      | zero => simp at h₂
      | succ f₂ =>
        simp only [countAux]
        by_cases hm : (!pat.isEmpty && headMatches pat (c :: cs)) = true
        · simp only [hm, if_pos]
          have h₁' : (cs.drop (pat.length - 1)).length ≤ f₁ := by
            simp [List.length_drop] at h₁ ⊢; omega
          have h₂' : (cs.drop (pat.length - 1)).length ≤ f₂ := by
            simp [List.length_drop] at h₂ ⊢; omega
          rw [ih _ _ h₁' h₂']
        · simp only [hm, if_neg, Bool.false_eq_true, not_false_iff]
          have h₁' : cs.length ≤ f₁ := by simp at h₁; omega
          have h₂' : cs.length ≤ f₂ := by simp at h₂; omega
          rw [ih _ _ h₁' h₂']

theorem pyCount_nil (pat : List Char) : pyCount pat [] = 0 := rfl

theorem pyCount_cons_match (pat : List Char) (c : Char) (cs : List Char)
    (hne : pat ≠ []) (hm : headMatches pat (c :: cs) = true) :
    pyCount pat (c :: cs) = pyCount pat (cs.drop (pat.length - 1)) + 1 := by
  have hem : pat.isEmpty = false := by
    cases pat with
    | nil => exact absurd rfl hne
    | cons p ps => rfl
  unfold pyCount
  simp only [List.length_cons, countAux, hem, hm, Bool.not_false, Bool.and_self, if_pos]
  rw [countAux_fuel pat cs.length (cs.drop (pat.length - 1)).length
    (cs.drop (pat.length - 1)) (by simp [List.length_drop]) (le_refl _)]

theorem pyCount_cons_nomatch (pat : List Char) (c : Char) (cs : List Char)
    (hm : headMatches pat (c :: cs) = false) :
    pyCount pat (c :: cs) = pyCount pat cs := by
  unfold pyCount
  simp only [List.length_cons, countAux, hm, Bool.and_false, Bool.false_eq_true,
    not_false_iff, if_neg]

theorem splitAux_fuel (pat : List Char) :
    ∀ fuel₁ fuel₂ l, l.length ≤ fuel₁ → l.length ≤ fuel₂ →
      splitAux pat fuel₁ l = splitAux pat fuel₂ l := by
  intro fuel₁
  induction fuel₁ with
  | zero =>
    intro fuel₂ l h₁ _
    have : l = [] := List.length_eq_zero.mp (Nat.le_zero.mp h₁)
    subst this
    cases fuel₂ <;> rfl
  | succ f₁ ih =>
    intro fuel₂ l h₁ h₂
    cases l with
    | nil => cases fuel₂ <;> rfl
    | cons c cs =>
      cases fuel₂ with
      | zero => simp at h₂
      | succ f₂ =>
        simp only [splitAux]
        by_cases hm : (!pat.isEmpty && headMatches pat (c :: cs)) = true
        · simp only [hm, if_pos]
          have h₁' : (cs.drop (pat.length - 1)).length ≤ f₁ := by
            simp [List.length_drop] at h₁ ⊢; omega
          have h₂' : (cs.drop (pat.length - 1)).length ≤ f₂ := by
            simp [List.length_drop] at h₂ ⊢; omega
          rw [ih _ _ h₁' h₂']
        · simp only [hm, if_neg, Bool.false_eq_true, not_false_iff]
          have h₁' : cs.length ≤ f₁ := by simp at h₁; omega
          have h₂' : cs.length ≤ f₂ := by simp at h₂; omega
          rw [ih _ _ h₁' h₂']

theorem pySplit_nil (pat : List Char) : pySplit pat [] = [[]] := rfl

theorem pySplit_cons_match (pat : List Char) (c : Char) (cs : List Char)
    (hne : pat ≠ []) (hm : headMatches pat (c :: cs) = true) :
    pySplit pat (c :: cs) = [] :: pySplit pat (cs.drop (pat.length - 1)) := by
  have hem : pat.isEmpty = false := by
    cases pat with
    | nil => exact absurd rfl hne
    | cons p ps => rfl
  unfold pySplit
  simp only [List.length_cons, splitAux, hem, hm, Bool.not_false, Bool.and_self, if_pos]
  rw [splitAux_fuel pat cs.length (cs.drop (pat.length - 1)).length
    (cs.drop (pat.length - 1)) (by simp [List.length_drop]) (le_refl _)]

theorem pySplit_cons_nomatch (pat : List Char) (c : Char) (cs : List Char)
    (hm : headMatches pat (c :: cs) = false) :
    pySplit pat (c :: cs) =
      match pySplit pat cs with
      | [] => [[c]]
      | g :: gs => (c :: g) :: gs := by
  unfold pySplit
  simp only [List.length_cons, splitAux, hm, Bool.and_false, Bool.false_eq_true,
    not_false_iff, if_neg]

theorem pySplit_ne_nil (pat l : List Char) : pySplit pat l ≠ [] := by
  unfold pySplit
  cases hfl : l.length with
  | zero =>
    have : l = [] := List.length_eq_zero.mp hfl
    subst this; simp [splitAux]
  | succ f =>
    cases l with
    | nil => simp [splitAux]
    | cons c cs =>
      simp only [splitAux]
      by_cases hm : (!pat.isEmpty && headMatches pat (c :: cs)) = true
      · simp [hm]
      · simp only [hm, if_neg, Bool.false_eq_true, not_false_iff]
        cases splitAux pat f cs <;> simp

theorem headMatches_nlPat_iff (l : List Char) :
    headMatches nlPat l = true ↔ ∃ cs, l = '\\' :: 'n' :: cs := by
  cases l with
  | nil => simp [headMatches, nlPat]
  | cons c cs =>
    cases cs with
    | nil => simp [headMatches, nlPat]
    | cons c₂ cs₂ =>
      simp only [nlPat, headMatches, Bool.and_true, Bool.and_eq_true, beq_iff_eq]
      constructor
      · rintro ⟨h₁, h₂⟩
        exact ⟨cs₂, by rw [← h₁, ← h₂]⟩
      · rintro ⟨cs', heq⟩
        injection heq with h₁ h₂
        injection h₂ with h₂ _
        exact ⟨h₁.symm, h₂.symm⟩

theorem headMatches_nlRep_iff (l : List Char) :
    headMatches nlRep l = true ↔ ∃ cs, l = '\\' :: '\\' :: 'n' :: cs := by
  cases l with
  | nil => simp [headMatches, nlRep]
  | cons c cs =>
    cases cs with
    | nil => simp [headMatches, nlRep]
    | cons c₂ cs₂ =>
      cases cs₂ with
      | nil => simp [headMatches, nlRep]
      | cons c₃ cs₃ =>
        simp only [nlRep, headMatches, Bool.and_true, Bool.and_eq_true, beq_iff_eq]
        constructor
        · rintro ⟨h₁, h₂, h₃⟩
          exact ⟨cs₃, by rw [← h₁, ← h₂, ← h₃]⟩
        · rintro ⟨cs', heq⟩
          injection heq with h₁ h₂
          injection h₂ with h₂ h₃
          injection h₃ with h₃ _
          exact ⟨h₁.symm, h₂.symm, h₃.symm⟩

/-- Every list either is empty, starts with the two-character sequence
`\n`, or starts with a character at which no `\n` match begins. -/
theorem nlShape (l : List Char) :
    l = [] ∨ (∃ cs, l = '\\' :: 'n' :: cs) ∨
      (∃ c cs, l = c :: cs ∧ headMatches nlPat (c :: cs) = false) := by
  cases l with
  | nil => exact Or.inl rfl
  | cons c cs =>
    by_cases hm : headMatches nlPat (c :: cs) = true
    · exact Or.inr (Or.inl ((headMatches_nlPat_iff _).mp hm))
    · exact Or.inr (Or.inr ⟨c, cs, rfl, Bool.eq_false_iff.mpr hm⟩)

theorem escapeNewlines_nil : escapeNewlines [] = [] := rfl

theorem escapeNewlines_match (cs : List Char) :
    escapeNewlines ('\\' :: 'n' :: cs) = '\\' :: '\\' :: 'n' :: escapeNewlines cs := by
  unfold escapeNewlines
  rw [pyReplace_cons_match nlPat nlRep '\\' ('n' :: cs) (by simp [nlPat])
    ((headMatches_nlPat_iff _).mpr ⟨cs, rfl⟩)]
  rfl

theorem escapeNewlines_nomatch (c : Char) (cs : List Char)
    (hm : headMatches nlPat (c :: cs) = false) :
    escapeNewlines (c :: cs) = c :: escapeNewlines cs :=
  pyReplace_cons_nomatch nlPat nlRep c cs hm

theorem unescapeNewlines_nil : unescapeNewlines [] = [] := rfl

theorem unescapeNewlines_match (cs : List Char) :
    unescapeNewlines ('\\' :: '\\' :: 'n' :: cs) = '\\' :: 'n' :: unescapeNewlines cs := by
  unfold unescapeNewlines
  rw [pyReplace_cons_match nlRep nlPat '\\' ('\\' :: 'n' :: cs) (by simp [nlRep])
    ((headMatches_nlRep_iff _).mpr ⟨cs, rfl⟩)]
  rfl

theorem unescapeNewlines_nomatch (c : Char) (cs : List Char)
    (hm : headMatches nlRep (c :: cs) = false) :
    unescapeNewlines (c :: cs) = c :: unescapeNewlines cs :=
  pyReplace_cons_nomatch nlRep nlPat c cs hm

/-- The escaped text never begins with the two-character sequence `\n`:
the scan either turned it into `\\n` or the leading characters never
formed `\n` in the first place. -/
theorem escapeNewlines_no_nl_head (cs : List Char) :
    headMatches nlPat (escapeNewlines cs) = false := by
  rcases nlShape cs with h | ⟨cs', h⟩ | ⟨c, cs', h, hm⟩
  · subst h; rfl
  · subst h
    rw [escapeNewlines_match]
    rw [Bool.eq_false_iff]
    intro hc
    obtain ⟨x, hx⟩ := (headMatches_nlPat_iff _).mp hc
    simp at hx
  · subst h
    rw [escapeNewlines_nomatch c cs' hm, Bool.eq_false_iff]
    intro hc
    obtain ⟨x, hx⟩ := (headMatches_nlPat_iff _).mp hc
    injection hx with h₁ h₂
    subst h₁
    rcases nlShape cs' with h' | ⟨cs₂, h'⟩ | ⟨c₂, cs₂, h', hm₂⟩
    · subst h'; simp [escapeNewlines_nil] at h₂
    · subst h'
      rw [escapeNewlines_match] at h₂
      simp at h₂
    · subst h'
      rw [escapeNewlines_nomatch c₂ cs₂ hm₂] at h₂
      injection h₂ with h₂ _
      subst h₂
      exact absurd ((headMatches_nlPat_iff _).mpr ⟨cs₂, rfl⟩)
        (Bool.eq_false_iff.mp hm)

/-- Applying the escape substitution and then the inverse substitution
recovers the original text exactly, for every string. -/
theorem unescape_escape (l : List Char) :
    unescapeNewlines (escapeNewlines l) = l := by
  suffices h : ∀ n l, l.length ≤ n → unescapeNewlines (escapeNewlines l) = l from
    h l.length l (le_refl _)
  intro n
  induction n with
  | zero =>
    intro l h
    have : l = [] := List.length_eq_zero.mp (Nat.le_zero.mp h)
    subst this; rfl
  | succ n ih =>
    intro l hl
    rcases nlShape l with h | ⟨cs, h⟩ | ⟨c, cs, h, hm⟩
    · subst h; rfl
    · subst h
      rw [escapeNewlines_match, unescapeNewlines_match,
        ih cs (by simp at hl; omega)]
    · subst h
      rw [escapeNewlines_nomatch c cs hm]
      have hno : headMatches nlRep (c :: escapeNewlines cs) = false := by
        rw [Bool.eq_false_iff]
        intro hc
        obtain ⟨x, hx⟩ := (headMatches_nlRep_iff _).mp hc
        injection hx with h₁ h₂
        exact absurd ((headMatches_nlPat_iff _).mpr ⟨x, h₂⟩)
          (Bool.eq_false_iff.mp (escapeNewlines_no_nl_head cs))
      rw [unescapeNewlines_nomatch c _ hno, ih cs (by simp at hl; omega)]

/-- Each replaced occurrence grows the text by exactly one character:
`\n` (two characters) becomes `\\n` (three characters). -/
theorem escapeNewlines_length (l : List Char) :
    (escapeNewlines l).length = l.length + pyCount nlPat l := by
  suffices h : ∀ n l, l.length ≤ n →
      (escapeNewlines l).length = l.length + pyCount nlPat l from
    h l.length l (le_refl _)
  intro n
  induction n with
  | zero =>
    intro l h
    have : l = [] := List.length_eq_zero.mp (Nat.le_zero.mp h)
    subst this; rfl
  | succ n ih =>
    intro l hl
    rcases nlShape l with h | ⟨cs, h⟩ | ⟨c, cs, h, hm⟩
    · subst h; rfl
    · subst h
      rw [escapeNewlines_match]
      unfold escapeNewlines
      rw [pyCount_cons_match nlPat '\\' ('n' :: cs) (by simp [nlPat])
        ((headMatches_nlPat_iff _).mpr ⟨cs, rfl⟩)]
      have : ('n' :: cs).drop (nlPat.length - 1) = cs := rfl
      rw [this]
      simp only [List.length_cons]
      have := ih cs (by simp at hl; omega)
      unfold escapeNewlines at this
      omega
    · subst h
      rw [escapeNewlines_nomatch c cs hm]
      unfold escapeNewlines
      rw [pyCount_cons_nomatch nlPat c cs hm]
      simp only [List.length_cons]
      have := ih cs (by simp at hl; omega)
      unfold escapeNewlines at this
      omega

/-- Joining after prepending a character to the first fragment prepends
the character to the joined text. -/
theorem joinWith_cons_head (rep : List Char) (c : Char) (g : List Char)
    (gs : List (List Char)) :
    joinWith rep ((c :: g) :: gs) = c :: joinWith rep (g :: gs) := by
  cases gs <;> simp [joinWith]

/-- Python's `text.replace(pat, rep)` coincides with splitting on the
occurrences of `pat` (left-to-right, non-overlapping) and re-joining the
fragments with `rep`: the spec's description of the substitution pass. -/
theorem pyReplace_eq_joinWith_pySplit (pat rep l : List Char) (hne : pat ≠ []) :
    pyReplace pat rep l = joinWith rep (pySplit pat l) := by
  suffices h : ∀ n l, l.length ≤ n →
      pyReplace pat rep l = joinWith rep (pySplit pat l) from
    h l.length l (le_refl _)
  intro n
  induction n with
  | zero =>
    intro l h
    have : l = [] := List.length_eq_zero.mp (Nat.le_zero.mp h)
    subst this; rfl
  | succ n ih =>
    intro l hl
    cases l with
    | nil => rfl
    | cons c cs =>
      by_cases hm : headMatches pat (c :: cs) = true
      · rw [pyReplace_cons_match pat rep c cs hne hm,
          pySplit_cons_match pat c cs hne hm]
        obtain ⟨g, gs, hgs⟩ : ∃ g gs, pySplit pat (cs.drop (pat.length - 1)) = g :: gs := by
          cases hsp : pySplit pat (cs.drop (pat.length - 1)) with
          | nil => exact absurd hsp (pySplit_ne_nil pat _)
          | cons g gs => exact ⟨g, gs, rfl⟩
        rw [hgs]
        have hlen : (cs.drop (pat.length - 1)).length ≤ n := by
          simp [List.length_drop] at hl ⊢; omega
        rw [ih _ hlen, hgs]
        simp [joinWith]
      · have hm' : headMatches pat (c :: cs) = false := Bool.eq_false_iff.mpr hm
        rw [pyReplace_cons_nomatch pat rep c cs hm',
          pySplit_cons_nomatch pat c cs hm']
        obtain ⟨g, gs, hgs⟩ : ∃ g gs, pySplit pat cs = g :: gs := by
          cases hsp : pySplit pat cs with
          | nil => exact absurd hsp (pySplit_ne_nil pat _)
          | cons g gs => exact ⟨g, gs, rfl⟩
        rw [hgs]
        simp only
        rw [joinWith_cons_head, ← hgs, ← ih cs (by simp at hl; omega)]

/-! ### The JSON document tree

`json.loads` produces a tree of dicts, lists, strings, numbers, booleans
and `None`; `json.dumps` serializes it back.  Python `dict`s preserve
insertion order, so objects are modelled as ordered association lists
(with their own list spine, so that the mutual recursions below are
structural).  Numbers are modelled as integers; `float` values (and the
non-standard `NaN`/`Infinity` constants of the Python parser) are outside
the model. -/

mutual

inductive Json where
  | null : Json
  | bool : Bool → Json
  | num : Int → Json
  | str : String → Json
  | arr : JArr → Json
  | obj : JObj → Json

inductive JArr where
  | nil : JArr
  | cons : Json → JArr → JArr

inductive JObj where
  | nil : JObj
  | cons : String → Json → JObj → JObj

end

/-! ### Compact serialization: `json.dumps(data, separators=(',', ':'))`

With the default `ensure_ascii=True`, `json.dumps` emits `"` and `\` and
every character outside `0x20`–`0x7e` in escaped form: the short escapes
`\b \f \n \r \t`, lowercase `\uXXXX` for other code points below
`0x10000`, and a surrogate pair `\uXXXX\uXXXX` above it.  Integers print
in decimal.  No whitespace is inserted anywhere (separators `,` / `:`). -/

/-- Lowercase hexadecimal digit, as produced by Python's format `04x`. -/
def hexDigit : Nat → Char
  | 0 => '0' | 1 => '1' | 2 => '2' | 3 => '3' | 4 => '4'
  | 5 => '5' | 6 => '6' | 7 => '7' | 8 => '8' | 9 => '9'
  | 10 => 'a' | 11 => 'b' | 12 => 'c' | 13 => 'd' | 14 => 'e' | _ => 'f'

/-- The six-character escape `\uXXXX` for code unit `n` (Python
`'\\u{0:04x}'.format(n)`). -/
def uEscape (n : Nat) : List Char :=
  ['\\', 'u', hexDigit (n / 4096 % 16), hexDigit (n / 256 % 16),
    hexDigit (n / 16 % 16), hexDigit (n % 16)]

/-- How `json.dumps` (with `ensure_ascii=True`) renders one character of a
string value. -/
def escChar (c : Char) : List Char :=
  if c = '"' then ['\\', '"']
  else if c = '\\' then ['\\', '\\']
  else if 0x20 ≤ c.toNat ∧ c.toNat ≤ 0x7e then [c]
  else if c = '\x08' then ['\\', 'b']
  else if c = '\x0c' then ['\\', 'f']
  else if c = '\n' then ['\\', 'n']
  else if c = '\r' then ['\\', 'r']
  else if c = '\t' then ['\\', 't']
  else if c.toNat < 0x10000 then uEscape c.toNat
  else uEscape (0xd800 + (c.toNat - 0x10000) / 0x400) ++
    uEscape (0xdc00 + (c.toNat - 0x10000) % 0x400)

/-- A JSON string literal: quote, escaped characters, quote. -/
def serializeString (s : String) : List Char :=
  '"' :: s.data.flatMap escChar ++ ['"']

/-- Fuel-indexed decimal printer (fuel `n + 1` always suffices). -/
def natDigitsAux : Nat → Nat → List Char
  | 0, _ => []
  | fuel + 1, n =>
    if n < 10 then [hexDigit n]
    else natDigitsAux fuel (n / 10) ++ [hexDigit (n % 10)]

/-- Decimal digits of a natural number, most significant first. -/
def natDigits (n : Nat) : List Char := natDigitsAux (n + 1) n

/-- Decimal rendering of a Python integer (`repr`), with `-` sign. -/
def serializeInt (i : Int) : List Char :=
  if i < 0 then '-' :: natDigits i.natAbs else natDigits i.toNat

mutual

/-- Compact serialization of a document:
`json.dumps(data, separators=(',', ':'))` (line 51 of `json_escape.py`). -/
def serializeJson : Json → List Char
  | .null => ['n', 'u', 'l', 'l']
  | .num i => serializeInt i
  | .bool true => ['t', 'r', 'u', 'e']
  | .str s => serializeString s
  | .bool false => ['f', 'a', 'l', 's', 'e']
  | .arr xs => '[' :: serializeElems xs ++ [']']
  | .obj kvs => '{' :: serializeMembers kvs ++ ['}']

/-- Array elements joined by `,` with no padding. -/
def serializeElems : JArr → List Char
  | .nil => []
  | .cons x .nil => serializeJson x
  | .cons x (JArr.cons y t) => serializeJson x ++ ',' :: serializeElems (JArr.cons y t)

/-- Object members `key:value` joined by `,` with no padding, in insertion
order. -/
def serializeMembers : JObj → List Char
  | .nil => []
  | .cons k v .nil => serializeString k ++ ':' :: serializeJson v
  | .cons k v (JObj.cons k₂ v₂ t) =>
    serializeString k ++ ':' :: serializeJson v ++ ',' :: serializeMembers (JObj.cons k₂ v₂ t)

end

/-! ### The parser: `json.loads` (strict mode)

A fuel-indexed recursive-descent parser over `List Char`, mirroring the
pure-Python scanner of the `json` module: whitespace (space, tab, newline,
carriage return) is skipped around tokens, strings accept the standard
escapes plus `\uXXXX` with surrogate-pair combination, raw control
characters inside strings are rejected (strict mode), numbers follow
`-?(0|[1-9][0-9]*)`, and a trailing fraction or exponent (a `float`) is
outside the model, as are lone-surrogate `\u` escapes. -/

/-- JSON whitespace (the Python scanner's `WHITESPACE_STR`). -/
def isJsonWs (c : Char) : Bool := c == ' ' || c == '\t' || c == '\n' || c == '\r'

/-- Skips leading JSON whitespace. -/
def skipWs (l : List Char) : List Char := l.dropWhile isJsonWs

/-- Value of one hexadecimal digit character, upper or lower case (as
`int(esc, 16)` accepts them). -/
def hexVal (c : Char) : Option Nat :=
  if 48 ≤ c.toNat ∧ c.toNat ≤ 57 then some (c.toNat - 48)
  else if 97 ≤ c.toNat ∧ c.toNat ≤ 102 then some (c.toNat - 87)
  else if 65 ≤ c.toNat ∧ c.toNat ≤ 70 then some (c.toNat - 55)
  else none

/-- Reads four hexadecimal digits (the `XXXX` of a `\uXXXX` escape). -/
def hex4 : List Char → Option (Nat × List Char)
  | h₁ :: h₂ :: h₃ :: h₄ :: rest =>
    match hexVal h₁, hexVal h₂, hexVal h₃, hexVal h₄ with
    | some d₁, some d₂, some d₃, some d₄ =>
      some (d₁ * 4096 + d₂ * 256 + d₃ * 16 + d₄, rest)
    | _, _, _, _ => none
  | _ => none

/-- The single-character backslash escapes accepted by the scanner
(`BACKSLASH` table of `json/decoder.py`). -/
def escMap : Char → Option Char
  | '"' => some '"'
  | '\\' => some '\\'
  | '/' => some '/'
  | 'b' => some '\x08'
  | 'f' => some '\x0c'
  | 'n' => some '\n'
  | 'r' => some '\r'
  | 't' => some '\t'
  | _ => none

/-- Fuel-indexed worker scanning a string literal after its opening quote
(`py_scanstring`); returns the decoded characters and the text after the
closing quote. -/
def parseStrAux : Nat → List Char → Option (List Char × List Char)
  | 0, _ => none
  | _ + 1, [] => none
  | fuel + 1, c :: rest =>
    if c = '"' then some ([], rest)
    else if c = '\\' then
      match rest with
      | [] => none
      | e :: rest₂ =>
        if e = 'u' then
          match hex4 rest₂ with
          | none => none
          | some (n, rest₃) =>
            if 0xd800 ≤ n ∧ n ≤ 0xdbff then
              match rest₃ with
              | '\\' :: 'u' :: rest₄ =>
                match hex4 rest₄ with
                | some (m, rest₅) =>
                  if 0xdc00 ≤ m ∧ m ≤ 0xdfff then
                    match parseStrAux fuel rest₅ with
                    | some (s, r) =>
                      some (Char.ofNat (0x10000 + (n - 0xd800) * 0x400 + (m - 0xdc00)) :: s, r)
                    | none => none
                  else none
                | none => none
              | _ => none
            else if 0xdc00 ≤ n ∧ n ≤ 0xdfff then none
            else
              match parseStrAux fuel rest₃ with
              | some (s, r) => some (Char.ofNat n :: s, r)
              | none => none
        else
          match escMap e with
          | some ch =>
            match parseStrAux fuel rest₂ with
            | some (s, r) => some (ch :: s, r)
            | none => none
          | none => none
    else if c.toNat < 0x20 then none
    else
      match parseStrAux fuel rest with
      | some (s, r) => some (c :: s, r)
      | none => none

/-- Scans a string literal after its opening quote. -/
def parseStringBody (l : List Char) : Option (List Char × List Char) :=
  parseStrAux (l.length + 1) l

/-- Accumulates a run of decimal digits (the integer part of `NUMBER_RE`). -/
def parseDigitsRun : Nat → List Char → Nat × List Char
  | acc, [] => (acc, [])
  | acc, c :: cs =>
    if c.isDigit then parseDigitsRun (acc * 10 + (c.toNat - 48)) cs
    else (acc, c :: cs)

/-- Such a following character means `NUMBER_RE` would go on to match a
fraction or exponent, i.e. a `float`: outside the model. -/
def isFloatTail : List Char → Bool
  | [] => false
  | c :: _ => c == '.' || c == 'e' || c == 'E'

/-- Parses `0|[1-9][0-9]*` (after `0`, no further digits are consumed,
exactly as Python's `NUMBER_RE` behaves). -/
def parseNatNum : List Char → Option (Nat × List Char)
  | [] => none
  | c :: cs =>
    if c = '0' then (if isFloatTail cs then none else some (0, cs))
    else if c.isDigit then
      match parseDigitsRun (c.toNat - 48) cs with
      | (n, r) => if isFloatTail r then none else some (n, r)
    else none

mutual

/-- One JSON value at the current position (the scanner's `scan_once`; no
leading whitespace is skipped here, exactly as in `py_make_scanner`). -/
def parseValue : Nat → List Char → Option (Json × List Char)
  | 0, _ => none
  | fuel + 1, l =>
    match l with
    | '"' :: rest =>
      match parseStringBody rest with
      | some (s, r) => some (Json.str (String.mk s), r)
      | none => none
    | '{' :: rest =>
      match skipWs rest with
      | '}' :: r => some (Json.obj JObj.nil, r)
      | l₁ =>
        match parseMembers fuel l₁ with
        | some (ms, r) => some (Json.obj ms, r)
        | none => none
    | '[' :: rest =>
      match skipWs rest with
      | ']' :: r => some (Json.arr JArr.nil, r)
      | l₁ =>
        match parseElems fuel l₁ with
        | some (xs, r) => some (Json.arr xs, r)
        | none => none
    | 'n' :: 'u' :: 'l' :: 'l' :: rest => some (Json.null, rest)
    | 't' :: 'r' :: 'u' :: 'e' :: rest => some (Json.bool true, rest)
    | 'f' :: 'a' :: 'l' :: 's' :: 'e' :: rest => some (Json.bool false, rest)
    | '-' :: rest =>
      match parseNatNum rest with
      | some (n, r) => some (Json.num (-(n : Int)), r)
      | none => none
    | c :: rest =>
      if c.isDigit then
        match parseNatNum (c :: rest) with
        | some (n, r) => some (Json.num (n : Int), r)
        | none => none
      else none
    | [] => none

/-- The member list of a nonempty object, starting at the opening quote of
the next key; consumes the closing `}` (`JSONObject`). -/
def parseMembers : Nat → List Char → Option (JObj × List Char)
  | 0, _ => none
  | fuel + 1, l =>
    match l with
    | '"' :: r₀ =>
      match parseStringBody r₀ with
      | some (k, r₁) =>
        match skipWs r₁ with
        | ':' :: r₂ =>
          match parseValue fuel (skipWs r₂) with
          | some (v, r₃) =>
            match skipWs r₃ with
            | '}' :: rest => some (JObj.cons (String.mk k) v JObj.nil, rest)
            | ',' :: r₄ =>
              match parseMembers fuel (skipWs r₄) with
              | some (ms, rest) => some (JObj.cons (String.mk k) v ms, rest)
              | none => none
            | _ => none
          | none => none
        | _ => none
      | none => none
    | _ => none

/-- The element list of a nonempty array, starting at the first value;
consumes the closing `]` (`JSONArray`). -/
def parseElems : Nat → List Char → Option (JArr × List Char)
  | 0, _ => none
  | fuel + 1, l =>
    match parseValue fuel l with
    | some (v, r₁) =>
      match skipWs r₁ with
      | ']' :: rest => some (JArr.cons v JArr.nil, rest)
      | ',' :: r₂ =>
        match parseElems fuel (skipWs r₂) with
        | some (xs, rest) => some (JArr.cons v xs, rest)
        | none => none
      | _ => none
    | none => none

end

/-- Model of `json.loads(s)`: skip leading whitespace, read one value,
skip trailing whitespace, and require the end of the input (`Extra data`
otherwise).  `none` models a raised `json.JSONDecodeError`.  One unit of
fuel is spent per character consumed before each recursive descent, so
`length + 1` always suffices. -/
def parseJsonText (s : String) : Option Json :=
  match parseValue (s.data.length + 1) (skipWs s.data) with
  | some (d, rest) => if skipWs rest = [] then some d else none
  | none => none

/-- Lines 34–57 of `json_escape.py` (`escape_json`): parse and validate,
re-serialize compactly, escape newlines.  `none` models the propagated
`json.JSONDecodeError`. -/
def escape_json (json_string : String) : Option String :=
  match parseJsonText json_string with
  | some data => some (String.mk (escapeNewlines (serializeJson data)))
  | none => none

/-! ### Auxiliary facts: characters, whitespace, decimal digits -/

theorem char_toNat_lt (c : Char) : c.toNat < 0x110000 := by
  have h := c.valid
  have ht : c.toNat = c.val.toNat := rfl
  rcases h with h | ⟨h₁, h₂⟩ <;> omega

theorem char_toNat_not_surrogate (c : Char) :
    c.toNat < 0xd800 ∨ 0xdfff < c.toNat := by
  have h := c.valid
  have ht : c.toNat = c.val.toNat := rfl
  rcases h with h | ⟨h₁, h₂⟩
  · exact Or.inl (by omega)
  · exact Or.inr (by omega)

theorem isDigit_toNat {c : Char} (h : c.isDigit = true) :
    48 ≤ c.toNat ∧ c.toNat ≤ 57 := by
  simp [Char.isDigit] at h
  exact h

theorem eq_of_toNat_eq {c : Char} {n : Nat} (h : c.toNat = n) : c = Char.ofNat n := by
  rw [← h, Char.ofNat_toNat]

/-- A digit character is one of the ten concrete digits. -/
theorem digit_char_cases {c : Char} (h : c.isDigit = true) :
    c = '0' ∨ c = '1' ∨ c = '2' ∨ c = '3' ∨ c = '4' ∨
    c = '5' ∨ c = '6' ∨ c = '7' ∨ c = '8' ∨ c = '9' := by
  obtain ⟨h₁, h₂⟩ := isDigit_toNat h
  have hc : c = Char.ofNat c.toNat := (Char.ofNat_toNat c).symm
  have hr : c.toNat = 48 ∨ c.toNat = 49 ∨ c.toNat = 50 ∨ c.toNat = 51 ∨ c.toNat = 52 ∨
      c.toNat = 53 ∨ c.toNat = 54 ∨ c.toNat = 55 ∨ c.toNat = 56 ∨ c.toNat = 57 := by omega
  rcases hr with h' | h' | h' | h' | h' | h' | h' | h' | h' | h'
  · exact Or.inl (by rw [hc, h'])
  · exact Or.inr (Or.inl (by rw [hc, h']))
  · exact Or.inr (Or.inr (Or.inl (by rw [hc, h'])))
  · exact Or.inr (Or.inr (Or.inr (Or.inl (by rw [hc, h']))))
  · exact Or.inr (Or.inr (Or.inr (Or.inr (Or.inl (by rw [hc, h'])))))
  · exact Or.inr (Or.inr (Or.inr (Or.inr (Or.inr (Or.inl (by rw [hc, h']))))))
  · exact Or.inr (Or.inr (Or.inr (Or.inr (Or.inr (Or.inr (Or.inl (by rw [hc, h'])))))))
  · exact Or.inr (Or.inr (Or.inr (Or.inr (Or.inr (Or.inr (Or.inr (Or.inl (by rw [hc, h']))))))))
  · exact Or.inr (Or.inr (Or.inr (Or.inr (Or.inr (Or.inr (Or.inr (Or.inr (Or.inl
      (by rw [hc, h'])))))))))
  · exact Or.inr (Or.inr (Or.inr (Or.inr (Or.inr (Or.inr (Or.inr (Or.inr (Or.inr
      (by rw [hc, h'])))))))))

/-- Whitespace characters are never digits. -/
theorem isJsonWs_of_isDigit {c : Char} (h : c.isDigit = true) : isJsonWs c = false := by
  rcases digit_char_cases h with h' | h' | h' | h' | h' | h' | h' | h' | h' | h' <;>
    subst h' <;> decide

/-- Skipping whitespace leaves a text whose head is not whitespace alone. -/
theorem skipWs_cons_of_not_ws {c : Char} (l : List Char) (h : isJsonWs c = false) :
    skipWs (c :: l) = c :: l := by
  simp [skipWs, List.dropWhile, h]

/-! ### Decimal digits: printing and reading back -/

theorem natDigitsAux_fuel :
    ∀ fuel₁ fuel₂ n, n < fuel₁ → n < fuel₂ →
      natDigitsAux fuel₁ n = natDigitsAux fuel₂ n := by
  intro fuel₁
  induction fuel₁ with
  | zero => intro fuel₂ n h₁ _; omega
  | succ f₁ ih =>
    intro fuel₂ n h₁ h₂
    cases fuel₂ with
    | zero => omega
    | succ f₂ =>
      simp only [natDigitsAux]
      by_cases hn : n < 10
      · simp [hn]
      · simp only [hn, if_neg, not_false_iff]
        have hd : n / 10 < n := Nat.div_lt_self (by omega) (by omega)
        rw [ih f₂ (n / 10) (by omega) (by omega)]

theorem natDigits_small {n : Nat} (h : n < 10) : natDigits n = [hexDigit n] := by
  unfold natDigits natDigitsAux
  simp [h]

theorem natDigits_large {n : Nat} (h : 10 ≤ n) :
    natDigits n = natDigits (n / 10) ++ [hexDigit (n % 10)] := by
  unfold natDigits
  conv_lhs => rw [natDigitsAux]
  have hlt : ¬ n < 10 := by omega
  simp only [hlt, if_neg, not_false_iff]
  have hd : n / 10 < n := Nat.div_lt_self (by omega) (by omega)
  rw [natDigitsAux_fuel n (n / 10 + 1) (n / 10) (by omega) (by omega)]

theorem hexDigit_isDigit {n : Nat} (h : n < 10) : (hexDigit n).isDigit = true := by
  interval_cases n <;> decide

theorem hexDigit_toNat {n : Nat} (h : n < 10) : (hexDigit n).toNat = 48 + n := by
  interval_cases n <;> decide

theorem hexDigit_ne_zero_char {n : Nat} (h₁ : 1 ≤ n) (h₂ : n < 10) : hexDigit n ≠ '0' := by
  interval_cases n <;> decide

theorem natDigits_all_digits :
    ∀ n c, c ∈ natDigits n → c.isDigit = true := by
  intro n
  induction n using Nat.strong_induction_on with
  | _ n ih =>
    intro c hc
    by_cases hn : n < 10
    · rw [natDigits_small hn] at hc
      simp at hc
      subst hc
      exact hexDigit_isDigit hn
    · rw [natDigits_large (by omega)] at hc
      rcases List.mem_append.mp hc with hc | hc
      · exact ih (n / 10) (Nat.div_lt_self (by omega) (by omega)) c hc
      · simp at hc
        subst hc
        exact hexDigit_isDigit (Nat.mod_lt n (by omega))

/-- The decimal rendering of a positive number starts with a nonzero
digit, and of any number with a digit. -/
theorem natDigits_head :
    ∀ n, ∃ c cs, natDigits n = c :: cs ∧ c.isDigit = true ∧ (1 ≤ n → c ≠ '0') := by
  intro n
  induction n using Nat.strong_induction_on with
  | _ n ih =>
    by_cases hn : n < 10
    · refine ⟨hexDigit n, [], natDigits_small hn, hexDigit_isDigit hn, ?_⟩
      intro h1
      exact hexDigit_ne_zero_char h1 hn
    · obtain ⟨c, cs, heq, hdig, hz⟩ :=
        ih (n / 10) (Nat.div_lt_self (by omega) (by omega))
      refine ⟨c, cs ++ [hexDigit (n % 10)], ?_, hdig, fun _ => hz (by omega)⟩
      rw [natDigits_large (by omega), heq]
      simp

/-- One step of the scanner's digit accumulator. -/
def digStep (a : Nat) (c : Char) : Nat := a * 10 + (c.toNat - 48)

theorem parseDigitsRun_stop (acc : Nat) (rest : List Char)
    (h : rest = [] ∨ ∀ c cs, rest = c :: cs → c.isDigit = false) :
    parseDigitsRun acc rest = (acc, rest) := by
  rcases h with h | h
  · subst h; rfl
  · cases rest with
    | nil => rfl
    | cons c cs =>
      have := h c cs rfl
      simp [parseDigitsRun, this]

theorem parseDigitsRun_append (ds : List Char) :
    ∀ acc rest, (∀ c ∈ ds, c.isDigit = true) →
      parseDigitsRun acc (ds ++ rest) = parseDigitsRun (List.foldl digStep acc ds) rest := by
  induction ds with
  | nil => intro acc rest _; rfl
  | cons d ds ih =>
    intro acc rest hall
    have hd : d.isDigit = true := hall d (by simp)
    simp only [List.cons_append, parseDigitsRun, hd, if_pos, List.foldl]
    exact ih _ rest (fun c hc => hall c (by simp [hc]))

theorem foldl_digStep_natDigits :
    ∀ n acc, List.foldl digStep acc (natDigits n) =
      acc * 10 ^ (natDigits n).length + n := by
  intro n
  induction n using Nat.strong_induction_on with
  | _ n ih =>
    intro acc
    by_cases hn : n < 10
    · rw [natDigits_small hn]
      simp only [List.foldl, List.length_cons, List.length_nil, pow_one, digStep]
      rw [hexDigit_toNat hn]
      omega
    · rw [natDigits_large (by omega)]
      rw [List.foldl_append]
      rw [ih (n / 10) (Nat.div_lt_self (by omega) (by omega)) acc]
      simp only [List.foldl, digStep, List.length_append, List.length_cons,
        List.length_nil]
      rw [hexDigit_toNat (Nat.mod_lt n (by omega))]
      have hdm : n / 10 * 10 + n % 10 = n := by omega
      have hpow : 10 ^ ((natDigits (n / 10)).length + (0 + 1)) =
          10 ^ (natDigits (n / 10)).length * 10 := by
        rw [Nat.zero_add, pow_succ]
      rw [hpow]
      set p := 10 ^ (natDigits (n / 10)).length with hp
      calc (acc * p + n / 10) * 10 + (48 + n % 10 - 48)
          = acc * (p * 10) + (n / 10 * 10 + n % 10) := by ring_nf; omega
        _ = acc * (p * 10) + n := by rw [hdm]

/-- A list position at which Python's `NUMBER_RE` can no longer extend the
match: not a digit and not the start of a fraction or exponent. -/
def numBoundary : List Char → Prop
  | [] => True
  | c :: _ => c.isDigit = false ∧ c ≠ '.' ∧ c ≠ 'e' ∧ c ≠ 'E'

theorem numBoundary_isFloatTail {rest : List Char} (h : numBoundary rest) :
    isFloatTail rest = false := by
  cases rest with
  | nil => rfl
  | cons c cs =>
    obtain ⟨_, h₁, h₂, h₃⟩ := h
    simp [isFloatTail, h₁, h₂, h₃]

theorem numBoundary_stop {rest : List Char} (h : numBoundary rest) (acc : Nat) :
    parseDigitsRun acc rest = (acc, rest) := by
  apply parseDigitsRun_stop
  cases rest with
  | nil => exact Or.inl rfl
  | cons c cs =>
    right
    intro c' cs' heq
    injection heq with heq _
    subst heq
    exact h.1

/-- Reading back the decimal rendering of `n` recovers `n`, whenever the
following text cannot extend the number. -/
theorem parseNatNum_natDigits (n : Nat) (rest : List Char) (hb : numBoundary rest) :
    parseNatNum (natDigits n ++ rest) = some (n, rest) := by
  obtain ⟨c, cs, heq, hdig, hz⟩ := natDigits_head n
  by_cases hn : n = 0
  · subst hn
    rw [natDigits_small (by omega)]
    show parseNatNum ('0' :: rest) = some (0, rest)
    simp [parseNatNum, numBoundary_isFloatTail hb]
  · have hcz : c ≠ '0' := hz (by omega)
    rw [heq]
    simp only [List.cons_append, parseNatNum, hcz, if_neg, hdig, if_pos]
    have hall : ∀ x ∈ cs, x.isDigit = true := by
      intro x hx
      exact natDigits_all_digits n x (by rw [heq]; simp [hx])
    rw [parseDigitsRun_append cs _ rest hall]
    have hfold : List.foldl digStep (c.toNat - 48) cs = n := by
      have h0 := foldl_digStep_natDigits n 0
      rw [heq] at h0
      simp only [List.foldl, digStep, Nat.zero_mul, Nat.zero_add] at h0
      exact h0
    rw [hfold, numBoundary_stop hb n]
    simp [numBoundary_isFloatTail hb]

/-! ### Hexadecimal escapes: printing and reading back -/

theorem hexVal_hexDigit : ∀ d < 16, hexVal (hexDigit d) = some d := by decide

theorem hex4_digits (n : Nat) (h : n < 0x10000) (R : List Char) :
    hex4 (hexDigit (n / 4096 % 16) :: hexDigit (n / 256 % 16) ::
      hexDigit (n / 16 % 16) :: hexDigit (n % 16) :: R) = some (n, R) := by
  have h₁ := hexVal_hexDigit (n / 4096 % 16) (Nat.mod_lt _ (by omega))
  have h₂ := hexVal_hexDigit (n / 256 % 16) (Nat.mod_lt _ (by omega))
  have h₃ := hexVal_hexDigit (n / 16 % 16) (Nat.mod_lt _ (by omega))
  have h₄ := hexVal_hexDigit (n % 16) (Nat.mod_lt _ (by omega))
  simp only [hex4, h₁, h₂, h₃, h₄, Option.some.injEq, Prod.mk.injEq]
  exact ⟨by omega, trivial⟩

/-! ### String literals: scanning back what the encoder produced -/

theorem parseStrAux_quote (f : Nat) (rest : List Char) :
    parseStrAux (f + 1) ('"' :: rest) = some ([], rest) := by
  simp [parseStrAux]

theorem parseStrAux_esc_simple (f : Nat) (e : Char) (rest : List Char) (ch : Char)
    (he : escMap e = some ch) (hu : e ≠ 'u') :
    parseStrAux (f + 1) ('\\' :: e :: rest) =
      match parseStrAux f rest with
      | some (s, r) => some (ch :: s, r)
      | none => none := by
  simp only [parseStrAux]
  rw [he]
  simp [hu]

theorem parseStrAux_plain (f : Nat) (c : Char) (rest : List Char)
    (h1 : c ≠ '"') (h2 : c ≠ '\\') (h3 : ¬ c.toNat < 0x20) :
    parseStrAux (f + 1) (c :: rest) =
      match parseStrAux f rest with
      | some (s, r) => some (c :: s, r)
      | none => none := by
  simp only [parseStrAux]
  rw [if_neg h1, if_neg h2, if_neg h3]

theorem parseStrAux_u_plain (f : Nat) (rest : List Char) (n : Nat) (rest₃ : List Char)
    (hh : hex4 rest = some (n, rest₃))
    (hn1 : ¬ (0xd800 ≤ n ∧ n ≤ 0xdbff)) (hn2 : ¬ (0xdc00 ≤ n ∧ n ≤ 0xdfff)) :
    parseStrAux (f + 1) ('\\' :: 'u' :: rest) =
      match parseStrAux f rest₃ with
      | some (s, r) => some (Char.ofNat n :: s, r)
      | none => none := by
  simp only [parseStrAux]
  rw [hh]
  simp [hn1, hn2]

theorem parseStrAux_u_pair (f : Nat) (rest : List Char) (n : Nat) (rest₄ : List Char)
    (m : Nat) (rest₅ : List Char)
    (hh : hex4 rest = some (n, '\\' :: 'u' :: rest₄))
    (hn : 0xd800 ≤ n ∧ n ≤ 0xdbff)
    (hh2 : hex4 rest₄ = some (m, rest₅))
    (hm : 0xdc00 ≤ m ∧ m ≤ 0xdfff) :
    parseStrAux (f + 1) ('\\' :: 'u' :: rest) =
      match parseStrAux f rest₅ with
      | some (s, r) =>
        some (Char.ofNat (0x10000 + (n - 0xd800) * 0x400 + (m - 0xdc00)) :: s, r)
      | none => none := by
  simp only [parseStrAux]
  rw [hh]
  simp [hn, hh2, hm]

/-- Scanning the encoded body of a string literal (followed by the closing
quote) recovers exactly the original characters. -/
theorem parseStrAux_roundtrip :
    ∀ l fuel rest, (l.flatMap escChar).length < fuel →
      parseStrAux fuel (l.flatMap escChar ++ '"' :: rest) = some (l, rest) := by
  intro l
  induction l with
  | nil =>
    intro fuel rest h
    simp only [List.flatMap_nil, List.length_nil, List.nil_append] at h ⊢
    cases fuel with
    | zero => omega
    | succ f => exact parseStrAux_quote f rest
  | cons c tl ih =>
    intro fuel rest h
    rw [List.flatMap_cons] at h ⊢
    rw [List.append_assoc]
    by_cases h1 : c = '"'
    · subst h1
      have hesc : escChar '"' = ['\\', '"'] := by decide
      rw [hesc] at h ⊢
      simp only [List.length_append, List.length_cons, List.length_nil] at h
      cases fuel with
      | zero => omega
      | succ f =>
        simp only [List.cons_append, List.nil_append]
        rw [parseStrAux_esc_simple f '"' _ '"' (by decide) (by decide)]
        rw [ih f rest (by omega)]
    · by_cases h2 : c = '\\'
      · subst h2
        have hesc : escChar '\\' = ['\\', '\\'] := by decide
        rw [hesc] at h ⊢
        simp only [List.length_append, List.length_cons, List.length_nil] at h
        cases fuel with
        | zero => omega
        | succ f =>
          simp only [List.cons_append, List.nil_append]
          rw [parseStrAux_esc_simple f '\\' _ '\\' (by decide) (by decide)]
          rw [ih f rest (by omega)]
      · by_cases h3 : 0x20 ≤ c.toNat ∧ c.toNat ≤ 0x7e
        · have hesc : escChar c = [c] := by
            simp only [escChar, if_neg h1, if_neg h2, if_pos h3]
          rw [hesc] at h ⊢
          simp only [List.length_append, List.length_cons, List.length_nil] at h
          cases fuel with
          | zero => omega
          | succ f =>
            simp only [List.cons_append, List.nil_append]
            rw [parseStrAux_plain f c _ h1 h2 (by omega)]
            rw [ih f rest (by omega)]
        · by_cases h4 : c = '\x08'
          · subst h4
            have hesc : escChar '\x08' = ['\\', 'b'] := by decide
            rw [hesc] at h ⊢
            simp only [List.length_append, List.length_cons, List.length_nil] at h
            cases fuel with
            | zero => omega
            | succ f =>
              simp only [List.cons_append, List.nil_append]
              rw [parseStrAux_esc_simple f 'b' _ '\x08' (by decide) (by decide)]
              rw [ih f rest (by omega)]
          · by_cases h5 : c = '\x0c'
            · subst h5
              have hesc : escChar '\x0c' = ['\\', 'f'] := by decide
              rw [hesc] at h ⊢
              simp only [List.length_append, List.length_cons, List.length_nil] at h
              cases fuel with
              | zero => omega
              | succ f =>
                simp only [List.cons_append, List.nil_append]
                rw [parseStrAux_esc_simple f 'f' _ '\x0c' (by decide) (by decide)]
                rw [ih f rest (by omega)]
            · by_cases h6 : c = '\n'
              · subst h6
                have hesc : escChar '\n' = ['\\', 'n'] := by decide
                rw [hesc] at h ⊢
                simp only [List.length_append, List.length_cons, List.length_nil] at h
                cases fuel with
                | zero => omega
                | succ f =>
                  simp only [List.cons_append, List.nil_append]
                  rw [parseStrAux_esc_simple f 'n' _ '\n' (by decide) (by decide)]
                  rw [ih f rest (by omega)]
              · by_cases h7 : c = '\r'
                · subst h7
                  have hesc : escChar '\r' = ['\\', 'r'] := by decide
                  rw [hesc] at h ⊢
                  simp only [List.length_append, List.length_cons, List.length_nil] at h
                  cases fuel with
                  | zero => omega
                  | succ f =>
                    simp only [List.cons_append, List.nil_append]
                    rw [parseStrAux_esc_simple f 'r' _ '\r' (by decide) (by decide)]
                    rw [ih f rest (by omega)]
                · by_cases h8 : c = '\t'
                  · subst h8
                    have hesc : escChar '\t' = ['\\', 't'] := by decide
                    rw [hesc] at h ⊢
                    simp only [List.length_append, List.length_cons, List.length_nil] at h
                    cases fuel with
                    | zero => omega
                    | succ f =>
                      simp only [List.cons_append, List.nil_append]
                      rw [parseStrAux_esc_simple f 't' _ '\t' (by decide) (by decide)]
                      rw [ih f rest (by omega)]
                  · by_cases h9 : c.toNat < 0x10000
                    · have hesc : escChar c = uEscape c.toNat := by
                        simp only [escChar, if_neg h1, if_neg h2, if_neg h3, if_neg h4,
                          if_neg h5, if_neg h6, if_neg h7, if_neg h8, if_pos h9]
                      rw [hesc] at h ⊢
                      simp only [uEscape, List.length_append, List.length_cons,
                        List.length_nil] at h
                      cases fuel with
                      | zero => omega
                      | succ f =>
                        simp only [uEscape, List.cons_append, List.nil_append]
                        rw [parseStrAux_u_plain f _ c.toNat
                          (tl.flatMap escChar ++ '"' :: rest)
                          (hex4_digits c.toNat h9 _)
                          (by rcases char_toNat_not_surrogate c with hs | hs <;> omega)
                          (by rcases char_toNat_not_surrogate c with hs | hs <;> omega)]
                        rw [ih f rest (by omega), Char.ofNat_toNat]
                    · have hlt := char_toNat_lt c
                      have hesc : escChar c =
                          uEscape (0xd800 + (c.toNat - 0x10000) / 0x400) ++
                            uEscape (0xdc00 + (c.toNat - 0x10000) % 0x400) := by
                        simp only [escChar, if_neg h1, if_neg h2, if_neg h3, if_neg h4,
                          if_neg h5, if_neg h6, if_neg h7, if_neg h8, if_neg h9]
                      rw [hesc] at h ⊢
                      simp only [uEscape, List.length_append, List.length_cons,
                        List.length_nil] at h
                      cases fuel with
                      | zero => omega
                      | succ f =>
                        simp only [uEscape, List.cons_append, List.nil_append,
                          List.append_assoc]
                        rw [parseStrAux_u_pair f _
                          (0xd800 + (c.toNat - 0x10000) / 0x400) _
                          (0xdc00 + (c.toNat - 0x10000) % 0x400) _
                          (hex4_digits (0xd800 + (c.toNat - 0x10000) / 0x400)
                            (by omega) _)
                          (by omega)
                          (hex4_digits (0xdc00 + (c.toNat - 0x10000) % 0x400)
                            (by omega) _)
                          (by omega)]
                        rw [ih f rest (by omega)]
                        have harith : 0x10000 +
                            (0xd800 + (c.toNat - 0x10000) / 0x400 - 0xd800) * 0x400 +
                            (0xdc00 + (c.toNat - 0x10000) % 0x400 - 0xdc00) = c.toNat := by
                          omega
                        rw [harith, Char.ofNat_toNat]

/-! ### Round-trip through the whole document -/

theorem parseStringBody_roundtrip (l rest : List Char) :
    parseStringBody (l.flatMap escChar ++ '"' :: rest) = some (l, rest) := by
  unfold parseStringBody
  apply parseStrAux_roundtrip
  simp only [List.length_append, List.length_cons]
  omega

theorem string_mk_data (s : String) : String.mk s.data = s := by
  cases s
  rfl

mutual

/-- Enough parser fuel for one value: one unit per descent into a
container. -/
def fuelVal : Json → Nat
  | .null => 1
  | .bool _ => 1
  | .num _ => 1
  | .str _ => 1
  | .arr xs => 1 + fuelElems xs
  | .obj kvs => 1 + fuelMembers kvs

/-- Enough parser fuel for an element list. -/
def fuelElems : JArr → Nat
  | .nil => 0
  | .cons x t => 1 + max (fuelVal x) (fuelElems t)

/-- Enough parser fuel for a member list. -/
def fuelMembers : JObj → Nat
  | .nil => 0
  | .cons _ v t => 1 + max (fuelVal v) (fuelMembers t)

end

theorem fuelVal_pos (D : Json) : 1 ≤ fuelVal D := by
  cases D <;> simp [fuelVal]

theorem numBoundary_comma (X : List Char) : numBoundary (',' :: X) :=
  ⟨by decide, by decide, by decide, by decide⟩

theorem numBoundary_rbrack (X : List Char) : numBoundary (']' :: X) :=
  ⟨by decide, by decide, by decide, by decide⟩

theorem numBoundary_rbrace (X : List Char) : numBoundary ('}' :: X) :=
  ⟨by decide, by decide, by decide, by decide⟩

/-- Every serialized value starts with a character that is neither
whitespace nor a closing bracket. -/
theorem serializeJson_head (D : Json) : ∃ c cs, serializeJson D = c :: cs ∧
    isJsonWs c = false ∧ c ≠ ']' ∧ c ≠ '}' := by
  cases D with
  | num i =>
    by_cases hi : i < 0
    · refine ⟨'-', natDigits i.natAbs, by simp [serializeJson, serializeInt, hi], by decide⟩
    · obtain ⟨c, cs, heq, hdig, _⟩ := natDigits_head i.toNat
      refine ⟨c, cs, by simp [serializeJson, serializeInt, hi, heq],
        isJsonWs_of_isDigit hdig, ?_, ?_⟩
      · intro hc
        rw [hc] at hdig
        exact absurd hdig (by decide)
      · intro hc
        rw [hc] at hdig
        exact absurd hdig (by decide)
  | bool b => cases b <;> exact ⟨_, _, rfl, by decide⟩
  | _ => exact ⟨_, _, rfl, by decide⟩

/-- A nonempty serialized element list starts like its first value. -/
theorem serializeElems_cons_head (x : Json) (t : JArr) : ∃ c cs,
    serializeElems (JArr.cons x t) = c :: cs ∧
    isJsonWs c = false ∧ c ≠ ']' ∧ c ≠ '}' := by
  obtain ⟨c, cs, heq, hws, h₁, h₂⟩ := serializeJson_head x
  cases t with
  | nil => exact ⟨c, cs, by simp [serializeElems, heq], hws, h₁, h₂⟩
  | cons y t₂ =>
    exact ⟨c, cs ++ ',' :: serializeElems (JArr.cons y t₂),
      by simp [serializeElems, heq], hws, h₁, h₂⟩

/-- A nonempty serialized member list starts with the quote of its first
key. -/
theorem serializeMembers_cons_head (k : String) (v : Json) (t : JObj) :
    ∃ cs, serializeMembers (JObj.cons k v t) = '"' :: cs := by
  cases t with
  | nil =>
    exact ⟨k.data.flatMap escChar ++ '"' :: ':' :: serializeJson v,
      by simp [serializeMembers, serializeString]⟩
  | cons k₂ v₂ t₂ =>
    exact ⟨k.data.flatMap escChar ++ '"' :: ':' ::
      (serializeJson v ++ ',' :: serializeMembers (JObj.cons k₂ v₂ t₂)),
      by simp [serializeMembers, serializeString]⟩

/-- The digit-headed arm of the value scanner. -/
theorem parseValue_digit (fuel : Nat) (c : Char) (rest : List Char)
    (h : c.isDigit = true) :
    parseValue (fuel + 1) (c :: rest) =
      match parseNatNum (c :: rest) with
      | some (n, r) => some (Json.num (n : Int), r)
      | none => none := by
  rcases digit_char_cases h with h' | h' | h' | h' | h' | h' | h' | h' | h' | h' <;>
    subst h' <;> simp [parseValue]

/-- The array arm of the value scanner, when the array is not empty. -/
theorem parseValue_arr_go (fuel : Nat) (c : Char) (cs : List Char)
    (hws : isJsonWs c = false) (hbr : c ≠ ']') :
    parseValue (fuel + 1) ('[' :: c :: cs) =
      match parseElems fuel (c :: cs) with
      | some (xs, r) => some (Json.arr xs, r)
      | none => none := by
  simp only [parseValue]
  rw [skipWs_cons_of_not_ws _ hws]
  split
  · rename_i heq
    injection heq with heq _
    exact absurd heq hbr
  · rfl

theorem skipWs_quote (X : List Char) : skipWs ('"' :: X) = '"' :: X :=
  skipWs_cons_of_not_ws _ (by decide)

theorem skipWs_colon (X : List Char) : skipWs (':' :: X) = ':' :: X :=
  skipWs_cons_of_not_ws _ (by decide)

theorem skipWs_comma (X : List Char) : skipWs (',' :: X) = ',' :: X :=
  skipWs_cons_of_not_ws _ (by decide)

theorem skipWs_rbrack (X : List Char) : skipWs (']' :: X) = ']' :: X :=
  skipWs_cons_of_not_ws _ (by decide)

theorem skipWs_rbrace (X : List Char) : skipWs ('}' :: X) = '}' :: X :=
  skipWs_cons_of_not_ws _ (by decide)

/-- The object arm of the value scanner, when the object is not empty. -/
theorem parseValue_obj_go (fuel : Nat) (cs : List Char) :
    parseValue (fuel + 1) ('{' :: '"' :: cs) =
      match parseMembers fuel ('"' :: cs) with
      | some (ms, r) => some (Json.obj ms, r)
      | none => none := by
  simp only [parseValue]
  rw [skipWs_quote]
  split
  · rename_i heq
    injection heq with h₁ _
    exact absurd h₁ (by decide)
  · rfl

set_option maxHeartbeats 1000000

/-- Parsing back a serialized document (joint statement for values,
element lists and member lists, by induction on the parser fuel). -/
theorem parse_serialize (fuel : Nat) :
    (∀ D rest, fuelVal D ≤ fuel → numBoundary rest →
      parseValue fuel (serializeJson D ++ rest) = some (D, rest)) ∧
    (∀ xs rest, xs ≠ JArr.nil → fuelElems xs ≤ fuel →
      parseElems fuel (serializeElems xs ++ ']' :: rest) = some (xs, rest)) ∧
    (∀ kvs rest, kvs ≠ JObj.nil → fuelMembers kvs ≤ fuel →
      parseMembers fuel (serializeMembers kvs ++ '}' :: rest) = some (kvs, rest)) := by
  induction fuel with
  | zero =>
    refine ⟨?_, ?_, ?_⟩
    · intro D rest hf _
      exact absurd hf (by have := fuelVal_pos D; omega)
    · intro xs rest hne hf
      cases xs with
      | nil => exact absurd rfl hne
      | cons x t => simp [fuelElems] at hf
    · intro kvs rest hne hf
      cases kvs with
      | nil => exact absurd rfl hne
      | cons k v t => simp [fuelMembers] at hf
  | succ fuel ih =>
    obtain ⟨ihA, ihB, ihC⟩ := ih
    refine ⟨?_, ?_, ?_⟩
    · intro D rest hf hb
      cases D with
      | null => simp [serializeJson, parseValue]
      | bool b => cases b <;> simp [serializeJson, parseValue]
      | num i =>
        by_cases hi : i < 0
        · simp only [serializeJson, serializeInt, if_pos hi, List.cons_append]
          simp only [parseValue]
          rw [parseNatNum_natDigits i.natAbs rest hb]
          have habs : (-(i.natAbs : Int)) = i := by omega
          simp only [habs]
        · simp only [serializeJson, serializeInt, if_neg hi]
          obtain ⟨c, cs, heq, hdig, _⟩ := natDigits_head i.toNat
          rw [heq, List.cons_append, parseValue_digit fuel c _ hdig,
            ← List.cons_append, ← heq, parseNatNum_natDigits i.toNat rest hb]
          have htn : ((i.toNat : Int)) = i := by omega
          simp only [htn]
      | str s =>
        simp only [serializeJson, serializeString, List.cons_append, List.append_assoc,
          List.singleton_append, List.nil_append]
        simp only [parseValue]
        rw [parseStringBody_roundtrip s.data rest]
      | arr xs =>
        cases xs with
        | nil =>
          simp only [serializeJson, serializeElems, List.nil_append, List.cons_append]
          simp only [parseValue]
          rw [skipWs_rbrack]
          rfl
        | cons x t =>
          obtain ⟨c, cs, heq, hws, hbr, _⟩ := serializeElems_cons_head x t
          simp only [serializeJson, List.cons_append, List.append_assoc,
            List.singleton_append, List.nil_append]
          rw [heq, List.cons_append]
          rw [parseValue_arr_go fuel c _ hws hbr]
          rw [← List.cons_append, ← heq]
          rw [ihB (JArr.cons x t) rest (by intro hcon; cases hcon)
            (by simp [fuelVal] at hf; omega)]
      | obj kvs =>
        cases kvs with
        | nil =>
          simp only [serializeJson, serializeMembers, List.nil_append, List.cons_append]
          simp only [parseValue]
          rw [skipWs_rbrace]
          rfl
        | cons k v t =>
          obtain ⟨cs, heq⟩ := serializeMembers_cons_head k v t
          simp only [serializeJson, List.cons_append, List.append_assoc,
            List.singleton_append, List.nil_append]
          rw [heq, List.cons_append]
          rw [parseValue_obj_go fuel _]
          rw [← List.cons_append, ← heq]
          rw [ihC (JObj.cons k v t) rest (by intro hcon; cases hcon)
            (by simp [fuelVal] at hf; omega)]
    · intro xs rest hne hf
      cases xs with
      | nil => exact absurd rfl hne
      | cons x t =>
        cases t with
        | nil =>
          simp only [serializeElems, parseElems]
          rw [ihA x (']' :: rest) (by simp [fuelElems] at hf; omega)
            (numBoundary_rbrack rest)]
          simp [skipWs_rbrack]
        | cons y t₂ =>
          simp only [serializeElems, List.cons_append, List.append_assoc]
          simp only [parseElems]
          rw [ihA x _ (by simp [fuelElems] at hf ⊢; omega) (numBoundary_comma _)]
          have hswy : skipWs (serializeElems (JArr.cons y t₂) ++ ']' :: rest) =
              serializeElems (JArr.cons y t₂) ++ ']' :: rest := by
            obtain ⟨c, cs, heqy, hws, _, _⟩ := serializeElems_cons_head y t₂
            rw [heqy, List.cons_append, skipWs_cons_of_not_ws _ hws]
          have hby := ihB (JArr.cons y t₂) rest (by intro hcon; cases hcon)
            (by simp [fuelElems] at hf ⊢; omega)
          simp [skipWs_comma, hswy, hby]
    · intro kvs rest hne hf
      cases kvs with
      | nil => exact absurd rfl hne
      | cons k v t =>
        have hswv : ∀ Z, skipWs (serializeJson v ++ Z) = serializeJson v ++ Z := by
          intro Z
          obtain ⟨c, cs, heqv, hws, _, _⟩ := serializeJson_head v
          rw [heqv, List.cons_append, skipWs_cons_of_not_ws _ hws]
        cases t with
        | nil =>
          simp only [serializeMembers, serializeString, List.cons_append,
            List.append_assoc, List.singleton_append, List.nil_append]
          simp only [parseMembers]
          rw [parseStringBody_roundtrip k.data _]
          have hv := ihA v ('}' :: rest) (by simp [fuelMembers] at hf; omega)
            (numBoundary_rbrace rest)
          simp [skipWs_colon, hswv, hv, skipWs_rbrace, string_mk_data]
        | cons k₂ v₂ t₂ =>
          simp only [serializeMembers, serializeString, List.cons_append,
            List.append_assoc, List.singleton_append, List.nil_append]
          simp only [parseMembers]
          rw [parseStringBody_roundtrip k.data _]
          have hv := ihA v _ (by simp [fuelMembers] at hf ⊢; omega)
            (numBoundary_comma (serializeMembers (JObj.cons k₂ v₂ t₂) ++ '}' :: rest))
          have hswm : skipWs (serializeMembers (JObj.cons k₂ v₂ t₂) ++ '}' :: rest) =
              serializeMembers (JObj.cons k₂ v₂ t₂) ++ '}' :: rest := by
            obtain ⟨cs₂, heqm⟩ := serializeMembers_cons_head k₂ v₂ t₂
            rw [heqm, List.cons_append, skipWs_quote]
          have hm := ihC (JObj.cons k₂ v₂ t₂) rest (by intro hcon; cases hcon)
            (by simp [fuelMembers] at hf ⊢; omega)
          simp [skipWs_colon, hswv, hv, skipWs_comma, hswm, hm, string_mk_data]

mutual

theorem fuelVal_le_length : ∀ D, fuelVal D ≤ (serializeJson D).length
  | .null => by simp [fuelVal, serializeJson]
  | .bool b => by cases b <;> simp [fuelVal, serializeJson]
  | .num i => by
    simp only [fuelVal, serializeJson, serializeInt]
    by_cases hi : i < 0
    · simp [hi]
    · simp only [hi, if_neg, not_false_iff]
      obtain ⟨c, cs, heq, _, _⟩ := natDigits_head i.toNat
      rw [heq]
      simp
  | .str s => by simp [fuelVal, serializeJson, serializeString]
  | .arr xs => by
    have h := fuelElems_le_length xs
    simp only [fuelVal, serializeJson, List.length_cons, List.length_append]
    omega
  | .obj kvs => by
    have h := fuelMembers_le_length kvs
    simp only [fuelVal, serializeJson, List.length_cons, List.length_append]
    omega

theorem fuelElems_le_length : ∀ xs, fuelElems xs ≤ (serializeElems xs).length + 1
  | .nil => by simp [fuelElems, serializeElems]
  | .cons x t => by
    have h1 := fuelVal_le_length x
    have h2 := fuelElems_le_length t
    cases t with
    | nil =>
      simp only [fuelElems, serializeElems] at *
      omega
    | cons y t₂ =>
      simp only [fuelElems, serializeElems, List.length_append, List.length_cons] at *
      omega

theorem fuelMembers_le_length : ∀ kvs, fuelMembers kvs ≤ (serializeMembers kvs).length + 1
  | .nil => by simp [fuelMembers, serializeMembers]
  | .cons k v t => by
    have h1 := fuelVal_le_length v
    have h2 := fuelMembers_le_length t
    cases t with
    | nil =>
      simp only [fuelMembers, serializeMembers, List.length_append, List.length_cons] at *
      omega
    | cons k₂ v₂ t₂ =>
      simp only [fuelMembers, serializeMembers, List.length_append, List.length_cons] at *
      omega

end

/-- Parsing the compact serialization of any document returns exactly that
document. -/
theorem parseJsonText_serializeJson (D : Json) :
    parseJsonText (String.mk (serializeJson D)) = some D := by
  unfold parseJsonText
  have hdata : (String.mk (serializeJson D)).data = serializeJson D := rfl
  rw [hdata]
  obtain ⟨c, cs, heq, hws, _, _⟩ := serializeJson_head D
  have hsw : skipWs (serializeJson D) = serializeJson D := by
    rw [heq]; exact skipWs_cons_of_not_ws _ hws
  rw [hsw]
  have hfuel : fuelVal D ≤ (serializeJson D).length + 1 := by
    have := fuelVal_le_length D
    omega
  have hmain := (parse_serialize ((serializeJson D).length + 1)).1 D [] hfuel trivial
  rw [List.append_nil] at hmain
  rw [hmain]
  rfl

/-! ### Single-line output: no raw newline, no inserted whitespace -/

theorem hexDigit_not_nl (n : Nat) : hexDigit n ≠ '\n' := by
  unfold hexDigit
  split <;> decide

theorem hexDigit_not_ws (n : Nat) : isJsonWs (hexDigit n) = false := by
  unfold hexDigit
  split <;> decide

/-- Everything the character encoder emits is either the character itself
(then printable ASCII) or drawn from the fixed escape alphabet. -/
theorem escChar_mem (c x : Char) (h : x ∈ escChar c) :
    (x = c ∧ 0x20 ≤ c.toNat ∧ c.toNat ≤ 0x7e) ∨ x = '\\' ∨ x = '"' ∨ x = 'u' ∨
    x = 'b' ∨ x = 'f' ∨ x = 'n' ∨ x = 'r' ∨ x = 't' ∨ (∃ d, x = hexDigit d) := by
  unfold escChar at h
  repeat' split at h
  · simp at h
    rcases h with hx | hx
    · exact Or.inr (Or.inl hx)
    · exact Or.inr (Or.inr (Or.inl hx))
  · simp at h
    exact Or.inr (Or.inl h)
  · rename_i h₁ h₂ h₃
    simp at h
    exact Or.inl ⟨h, h₃⟩
  · simp at h
    rcases h with hx | hx
    · exact Or.inr (Or.inl hx)
    · exact Or.inr (Or.inr (Or.inr (Or.inr (Or.inl hx))))
  · simp at h
    rcases h with hx | hx
    · exact Or.inr (Or.inl hx)
    · exact Or.inr (Or.inr (Or.inr (Or.inr (Or.inr (Or.inl hx)))))
  · simp at h
    rcases h with hx | hx
    · exact Or.inr (Or.inl hx)
    · exact Or.inr (Or.inr (Or.inr (Or.inr (Or.inr (Or.inr (Or.inl hx))))))
  · simp at h
    rcases h with hx | hx
    · exact Or.inr (Or.inl hx)
    · exact Or.inr (Or.inr (Or.inr (Or.inr (Or.inr (Or.inr (Or.inr (Or.inl hx)))))))
  · simp at h
    rcases h with hx | hx
    · exact Or.inr (Or.inl hx)
    · exact Or.inr (Or.inr (Or.inr (Or.inr (Or.inr (Or.inr (Or.inr (Or.inr (Or.inl hx))))))))
  · simp [uEscape] at h
    rcases h with hx | hx | hx | hx | hx | hx
    · exact Or.inr (Or.inl hx)
    · exact Or.inr (Or.inr (Or.inr (Or.inl hx)))
    · exact Or.inr (Or.inr (Or.inr (Or.inr (Or.inr (Or.inr (Or.inr (Or.inr (Or.inr ⟨_, hx⟩))))))))
    · exact Or.inr (Or.inr (Or.inr (Or.inr (Or.inr (Or.inr (Or.inr (Or.inr (Or.inr ⟨_, hx⟩))))))))
    · exact Or.inr (Or.inr (Or.inr (Or.inr (Or.inr (Or.inr (Or.inr (Or.inr (Or.inr ⟨_, hx⟩))))))))
    · exact Or.inr (Or.inr (Or.inr (Or.inr (Or.inr (Or.inr (Or.inr (Or.inr (Or.inr ⟨_, hx⟩))))))))
  · simp [uEscape] at h
    rcases h with hx | hx | hx | hx | hx | hx | hx | hx | hx | hx | hx | hx
    · exact Or.inr (Or.inl hx)
    · exact Or.inr (Or.inr (Or.inr (Or.inl hx)))
    · exact Or.inr (Or.inr (Or.inr (Or.inr (Or.inr (Or.inr (Or.inr (Or.inr (Or.inr ⟨_, hx⟩))))))))
    · exact Or.inr (Or.inr (Or.inr (Or.inr (Or.inr (Or.inr (Or.inr (Or.inr (Or.inr ⟨_, hx⟩))))))))
    · exact Or.inr (Or.inr (Or.inr (Or.inr (Or.inr (Or.inr (Or.inr (Or.inr (Or.inr ⟨_, hx⟩))))))))
    · exact Or.inr (Or.inr (Or.inr (Or.inr (Or.inr (Or.inr (Or.inr (Or.inr (Or.inr ⟨_, hx⟩))))))))
    · exact Or.inr (Or.inl hx)
    · exact Or.inr (Or.inr (Or.inr (Or.inl hx)))
    · exact Or.inr (Or.inr (Or.inr (Or.inr (Or.inr (Or.inr (Or.inr (Or.inr (Or.inr ⟨_, hx⟩))))))))
    · exact Or.inr (Or.inr (Or.inr (Or.inr (Or.inr (Or.inr (Or.inr (Or.inr (Or.inr ⟨_, hx⟩))))))))
    · exact Or.inr (Or.inr (Or.inr (Or.inr (Or.inr (Or.inr (Or.inr (Or.inr (Or.inr ⟨_, hx⟩))))))))
    · exact Or.inr (Or.inr (Or.inr (Or.inr (Or.inr (Or.inr (Or.inr (Or.inr (Or.inr ⟨_, hx⟩))))))))

theorem escChar_no_nl (c x : Char) (h : x ∈ escChar c) : x ≠ '\n' := by
  rcases escChar_mem c x h with ⟨rfl, h₁, h₂⟩ | hx | hx | hx | hx | hx | hx | hx | hx | ⟨d, hx⟩
  · intro heq
    rw [heq] at h₁
    exact absurd h₁ (by decide)
  all_goals first
    | (subst hx; decide)
    | (rw [hx]; exact hexDigit_not_nl d)

theorem escChar_ws_free (c x : Char) (hc : isJsonWs c = false) (h : x ∈ escChar c) :
    isJsonWs x = false := by
  rcases escChar_mem c x h with ⟨rfl, h₁, h₂⟩ | hx | hx | hx | hx | hx | hx | hx | hx | ⟨d, hx⟩
  · exact hc
  all_goals first
    | (subst hx; decide)
    | (rw [hx]; exact hexDigit_not_ws d)


theorem serializeString_no_nl (s : String) : '\n' ∉ serializeString s := by
  intro h
  simp only [serializeString] at h
  rcases List.mem_append.mp h with h | h
  · rcases List.mem_cons.mp h with h | h
    · exact absurd h (by decide)
    · rw [List.mem_flatMap] at h
      obtain ⟨a, _, hmem⟩ := h
      exact escChar_no_nl a '\n' hmem rfl
  · rcases List.mem_cons.mp h with h | h
    · exact absurd h (by decide)
    · exact absurd h (by simp)

mutual

theorem serializeJson_no_nl : ∀ D, '\n' ∉ serializeJson D
  | .null => by decide
  | .bool b => by cases b <;> decide
  | .num i => by
    intro h
    simp only [serializeJson, serializeInt] at h
    by_cases hi : i < 0
    · rw [if_pos hi] at h
      rcases List.mem_cons.mp h with h | h
      · exact absurd h (by decide)
      · exact absurd (natDigits_all_digits _ _ h) (by decide)
    · rw [if_neg hi] at h
      exact absurd (natDigits_all_digits _ _ h) (by decide)
  | .str s => serializeString_no_nl s
  | .arr xs => by
    intro h
    simp only [serializeJson] at h
    rcases List.mem_append.mp h with h | h
    · rcases List.mem_cons.mp h with h | h
      · exact absurd h (by decide)
      · exact serializeElems_no_nl xs h
    · rcases List.mem_cons.mp h with h | h
      · exact absurd h (by decide)
      · exact absurd h (by simp)
  | .obj kvs => by
    intro h
    simp only [serializeJson] at h
    rcases List.mem_append.mp h with h | h
    · rcases List.mem_cons.mp h with h | h
      · exact absurd h (by decide)
      · exact serializeMembers_no_nl kvs h
    · rcases List.mem_cons.mp h with h | h
      · exact absurd h (by decide)
      · exact absurd h (by simp)

theorem serializeElems_no_nl : ∀ xs, '\n' ∉ serializeElems xs
  | .nil => by simp [serializeElems]
  | .cons x .nil => by
    intro h
    simp only [serializeElems] at h
    exact serializeJson_no_nl x h
  | .cons x (JArr.cons y t₂) => by
    intro h
    simp only [serializeElems] at h
    rcases List.mem_append.mp h with h | h
    · exact serializeJson_no_nl x h
    · rcases List.mem_cons.mp h with h | h
      · exact absurd h (by decide)
      · exact serializeElems_no_nl (JArr.cons y t₂) h

theorem serializeMembers_no_nl : ∀ kvs, '\n' ∉ serializeMembers kvs
  | .nil => by simp [serializeMembers]
  | .cons k v .nil => by
    intro h
    simp only [serializeMembers] at h
    rcases List.mem_append.mp h with h | h
    · exact serializeString_no_nl k h
    · rcases List.mem_cons.mp h with h | h
      · exact absurd h (by decide)
      · exact serializeJson_no_nl v h
  | .cons k v (JObj.cons k₂ v₂ t₂) => by
    intro h
    simp only [serializeMembers] at h
    rcases List.mem_append.mp h with h | h
    · rcases List.mem_append.mp h with h | h
      · exact serializeString_no_nl k h
      · rcases List.mem_cons.mp h with h | h
        · exact absurd h (by decide)
        · exact serializeJson_no_nl v h
    · rcases List.mem_cons.mp h with h | h
      · exact absurd h (by decide)
      · exact serializeMembers_no_nl (JObj.cons k₂ v₂ t₂) h

end

mutual

/-- No string (value or key) anywhere in the document contains a JSON
whitespace character. -/
def jsonWsFree : Json → Bool
  | .null => true
  | .bool _ => true
  | .num _ => true
  | .str s => s.data.all (fun c => !(isJsonWs c))
  | .arr xs => arrWsFree xs
  | .obj kvs => objWsFree kvs

/-- Whitespace-freedom for an element list. -/
def arrWsFree : JArr → Bool
  | .nil => true
  | .cons x t => jsonWsFree x && arrWsFree t

/-- Whitespace-freedom for a member list. -/
def objWsFree : JObj → Bool
  | .nil => true
  | .cons k v t => k.data.all (fun c => !(isJsonWs c)) && jsonWsFree v && objWsFree t

end

theorem serializeString_ws_free (s : String)
    (hs : s.data.all (fun c => !(isJsonWs c)) = true) :
    ∀ x ∈ serializeString s, isJsonWs x = false := by
  intro x h
  simp only [serializeString] at h
  rcases List.mem_append.mp h with h | h
  · rcases List.mem_cons.mp h with h | h
    · subst h; decide
    · rw [List.mem_flatMap] at h
      obtain ⟨a, hmem, hx⟩ := h
      have ha : isJsonWs a = false := by
        have := List.all_eq_true.mp hs a hmem
        simpa using this
      exact escChar_ws_free a x ha hx
  · rcases List.mem_cons.mp h with h | h
    · subst h; decide
    · exact absurd h (by simp)

mutual

theorem serializeJson_ws_free : ∀ D, jsonWsFree D = true →
    ∀ x ∈ serializeJson D, isJsonWs x = false
  | .null => by intro _ x h; fin_cases h <;> decide
  | .bool b => by cases b <;> (intro _ x h; fin_cases h <;> decide)
  | .num i => by
    intro _ x h
    simp only [serializeJson, serializeInt] at h
    by_cases hi : i < 0
    · rw [if_pos hi] at h
      rcases List.mem_cons.mp h with h | h
      · subst h; decide
      · exact isJsonWs_of_isDigit (natDigits_all_digits _ _ h)
    · rw [if_neg hi] at h
      exact isJsonWs_of_isDigit (natDigits_all_digits _ _ h)
  | .str s => by
    intro hwf x h
    simp only [jsonWsFree] at hwf
    exact serializeString_ws_free s hwf x h
  | .arr xs => by
    intro hwf x h
    simp only [jsonWsFree] at hwf
    simp only [serializeJson] at h
    rcases List.mem_append.mp h with h | h
    · rcases List.mem_cons.mp h with h | h
      · subst h; decide
      · exact serializeElems_ws_free xs hwf x h
    · rcases List.mem_cons.mp h with h | h
      · subst h; decide
      · exact absurd h (by simp)
  | .obj kvs => by
    intro hwf x h
    simp only [jsonWsFree] at hwf
    simp only [serializeJson] at h
    rcases List.mem_append.mp h with h | h
    · rcases List.mem_cons.mp h with h | h
      · subst h; decide
      · exact serializeMembers_ws_free kvs hwf x h
    · rcases List.mem_cons.mp h with h | h
      · subst h; decide
      · exact absurd h (by simp)

theorem serializeElems_ws_free : ∀ xs, arrWsFree xs = true →
    ∀ x ∈ serializeElems xs, isJsonWs x = false
  | .nil => by intro _ x h; simp [serializeElems] at h
  | .cons y .nil => by
    intro hwf x h
    simp only [arrWsFree, Bool.and_eq_true] at hwf
    simp only [serializeElems] at h
    exact serializeJson_ws_free y hwf.1 x h
  | .cons y (JArr.cons z t₂) => by
    intro hwf x h
    simp only [arrWsFree, Bool.and_eq_true] at hwf
    simp only [serializeElems] at h
    rcases List.mem_append.mp h with h | h
    · exact serializeJson_ws_free y hwf.1 x h
    · rcases List.mem_cons.mp h with h | h
      · subst h; decide
      · exact serializeElems_ws_free (JArr.cons z t₂)
          (by simp only [arrWsFree, Bool.and_eq_true]; exact hwf.2) x h

theorem serializeMembers_ws_free : ∀ kvs, objWsFree kvs = true →
    ∀ x ∈ serializeMembers kvs, isJsonWs x = false
  | .nil => by intro _ x h; simp [serializeMembers] at h
  | .cons k v .nil => by
    intro hwf x h
    simp only [objWsFree, Bool.and_eq_true] at hwf
    simp only [serializeMembers] at h
    rcases List.mem_append.mp h with h | h
    · exact serializeString_ws_free k hwf.1.1 x h
    · rcases List.mem_cons.mp h with h | h
      · subst h; decide
      · exact serializeJson_ws_free v hwf.1.2 x h
  | .cons k v (JObj.cons k₂ v₂ t₂) => by
    intro hwf x h
    simp only [objWsFree, Bool.and_eq_true] at hwf
    simp only [serializeMembers] at h
    rcases List.mem_append.mp h with h | h
    · rcases List.mem_append.mp h with h | h
      · exact serializeString_ws_free k hwf.1.1 x h
      · rcases List.mem_cons.mp h with h | h
        · subst h; decide
        · exact serializeJson_ws_free v hwf.1.2 x h
    · rcases List.mem_cons.mp h with h | h
      · subst h; decide
      · exact serializeMembers_ws_free (JObj.cons k₂ v₂ t₂)
          (by simp only [objWsFree, Bool.and_eq_true]; exact hwf.2) x h

end

/-- The escaping pass only ever emits characters of the original text or
backslash and the letter n; in particular it cannot introduce a raw
newline. -/
theorem escapeNewlines_no_nl (l : List Char) (h : '\n' ∉ l) :
    '\n' ∉ escapeNewlines l := by
  suffices hs : ∀ n l, l.length ≤ n → '\n' ∉ l → '\n' ∉ escapeNewlines l from
    hs l.length l (le_refl _) h
  intro n
  induction n with
  | zero =>
    intro l hl _
    have : l = [] := List.length_eq_zero.mp (Nat.le_zero.mp hl)
    subst this
    simp [escapeNewlines_nil]
  | succ n ih =>
    intro l hl hnl
    rcases nlShape l with hsh | ⟨cs, hsh⟩ | ⟨c, cs, hsh, hm⟩
    · subst hsh; simp [escapeNewlines_nil]
    · subst hsh
      rw [escapeNewlines_match]
      intro hmem
      rcases List.mem_cons.mp hmem with h' | h'
      · exact absurd h' (by decide)
      · rcases List.mem_cons.mp h' with h' | h'
        · exact absurd h' (by decide)
        · rcases List.mem_cons.mp h' with h' | h'
          · exact absurd h' (by decide)
          · exact ih cs (by simp at hl; omega)
              (fun hc => hnl (List.mem_cons_of_mem _ (List.mem_cons_of_mem _ hc))) h'
    · subst hsh
      rw [escapeNewlines_nomatch c cs hm]
      intro hmem
      rcases List.mem_cons.mp hmem with h' | h'
      · exact hnl (List.mem_cons.mpr (Or.inl h'))
      · exact ih cs (by simp at hl; omega)
          (fun hc => hnl (List.mem_cons_of_mem _ hc)) h'

/-! ### The `main` function, as a pure function of its environment

`runMain` transcribes lines 83–178 of `json_escape.py`.  The environment
captures everything `main` observes: the positional argument, the file
system (content of a named file, or `none` when it does not exist), the
standard-input text, whether standard input is an interactive terminal,
the two flags, and whether the clipboard is usable (`pyperclip` importable
and the copy call succeeding).  The outcome records the exit code and the
lines printed to standard output and to the error stream, in order.  Help
text and the payloads of Python exception messages are abstracted as fixed
strings; `KeyboardInterrupt` (exit 130) is an asynchronous event outside
the model. -/

structure Env where
  filename : Option String
  fileContent : String → Option String
  stdinText : String
  stdinIsTTY : Bool
  clipboardFlag : Bool
  verifyFlag : Bool
  clipboardWorks : Bool

structure Outcome where
  exitCode : Nat
  stdout : List String
  stderr : List String
deriving DecidableEq

/-- Stand-in for the argparse help text printed on an interactive terminal
with no argument (line 122; formatting out of scope). -/
def helpText : String := "usage: json_escape.py [-h] [-c] [--verify] [filename]"

/-- Line 133. -/
def fileNotFoundMsg (name : String) : String :=
  "❌ Error: File \x27" ++ name ++ "\x27 not found"

/-- Line 170 (the appended `JSONDecodeError` text is abstracted away). -/
def invalidJsonMsg : String := "❌ Error: Invalid JSON: "

/-- Line 171. -/
def invalidJsonTip : String := "\nTip: Ensure your file is valid JSON"

/-- Line 146. -/
def verifyOkMsg : String := "✓ Verification successful: JSON is valid"

/-- Line 148 (the appended `JSONDecodeError` text is abstracted away). -/
def verifyWarnMsg : String := "⚠️  Verification warning: "

/-- Lines 74–76 (clipboard failure warnings). -/
def clipboardWarn₁ : String := "\n⚠️  Clipboard feature requires pyperclip package"

def clipboardWarn₂ : String := "Install with: pip install pyperclip"

def clipboardWarn₃ : String := "\nOutput printed below instead:\n"

/-- Line 153. -/
def copiedMsg (source : String) : String := "✓ Copied to clipboard from " ++ source

/-- Lines 154–157. -/
def pasteHint : String := "\nPaste this into your CREATE SECRET statement:"

def createSecretHint₁ : String := "CREATE OR REPLACE SECRET GSHEET_CREDENTIALS"

def createSecretHint₂ : String := "  TYPE = GENERIC_STRING"

def secretStringHintClipboard : String := "  SECRET_STRING = \x27<paste here>\x27;"

/-- Lines 163–167. -/
def processedMsg (source : String) : String :=
  "\n✓ Processed " ++ source ++ " successfully"

def nextStepHint : String := "\nNext step: Copy the output above and use it in Snowflake:"

def secretStringHintPrinted : String := "  SECRET_STRING = \x27<paste the output above>\x27;"

/-- Lines 59–81 (`copy_to_clipboard`): `true` on success; on failure the
warning lines go to the error stream and the caller falls back to
printing.  The two failure modes (pyperclip missing, copy raising) are
folded into `clipboardWorks = false`, with the ImportError wording. -/
def copy_to_clipboard (works : Bool) : Bool × List String :=
  if works then (true, [])
  else (false, [clipboardWarn₁, clipboardWarn₂, clipboardWarn₃])

/-- Lines 136–167: process acquired input text and emit the result.
`source` is `"stdin"` or the file name, used in status messages. -/
def runProcess (e : Env) (json_string source : String) : Outcome :=
  match escape_json json_string with
  | none =>
    { exitCode := 1, stdout := [], stderr := [invalidJsonMsg, invalidJsonTip] }
  | some escaped =>
    let verifyMsgs :=
      if e.verifyFlag then
        match parseJsonText (pyStrReplace escaped "\\\\n" "\\n") with
        | some _ => [verifyOkMsg]
        | none => [verifyWarnMsg]
      else []
    if e.clipboardFlag then
      match copy_to_clipboard e.clipboardWorks with
      | (true, msgs) =>
        { exitCode := 0, stdout := [],
          stderr := verifyMsgs ++ msgs ++ [copiedMsg source, pasteHint,
            createSecretHint₁, createSecretHint₂, secretStringHintClipboard] }
      | (false, msgs) =>
        { exitCode := 0, stdout := [escaped], stderr := verifyMsgs ++ msgs }
    else
      { exitCode := 0, stdout := [escaped],
        stderr := verifyMsgs ++ [processedMsg source, nextStepHint,
          createSecretHint₁, createSecretHint₂, secretStringHintPrinted] }

/-- The input-acquisition phase (lines 118–134): the text and source
label `main` goes on to process, or `none` when it stops early (an
interactive terminal with no argument, or a named file that does not
exist). -/
def acquireInput (e : Env) : Option (String × String) :=
  match e.filename with
  | none => if e.stdinIsTTY then none else some (e.stdinText, "stdin")
  | some name =>
    if name = "-" then some (e.stdinText, "stdin")
    else
      match e.fileContent name with
      | some txt => some (txt, name)
      | none => none

/-- Lines 117–178 (`main`): acquire input, then process; when acquisition
stops, either print the help on standard output (no argument, interactive
terminal, line 122) or report the missing file on the error stream
(line 133), and exit with code 1. -/
def runMain (e : Env) : Outcome :=
  match acquireInput e with
  | some (txt, src) => runProcess e txt src
  | none =>
    match e.filename with
    | none => { exitCode := 1, stdout := [helpText], stderr := [] }
    | some name => { exitCode := 1, stdout := [], stderr := [fileNotFoundMsg name] }

theorem runMain_acquired (e : Env) (txt src : String)
    (h : acquireInput e = some (txt, src)) : runMain e = runProcess e txt src := by
  unfold runMain
  rw [h]

/-! ### Order of object members in the output -/

/-- The serialized text of each object member, in insertion order. -/
def memberTexts : JObj → List (List Char)
  | .nil => []
  | .cons k v t => (serializeString k ++ ':' :: serializeJson v) :: memberTexts t

/-- Members are serialized in exactly the order of the association list:
the member texts, joined with commas. -/
theorem serializeMembers_joinWith :
    ∀ kvs, serializeMembers kvs = joinWith [','] (memberTexts kvs)
  | .nil => rfl
  | .cons k v .nil => by simp [serializeMembers, memberTexts, joinWith]
  | .cons k v (JObj.cons k₂ v₂ t₂) => by
    simp only [serializeMembers, memberTexts, joinWith]
    have ih := serializeMembers_joinWith (JObj.cons k₂ v₂ t₂)
    simp only [memberTexts] at ih
    rw [← ih]
    simp [serializeMembers, List.append_assoc]

/-! ### Environments used in concrete runs -/

/-- The spec's malformed example input (test 5 of §8). -/
def malformedInput : String := "\x7b\"a\":\x7d"

/-- Standard input carrying the malformed example, no flags. -/
def malformedEnv : Env :=
  { filename := none, fileContent := fun _ => none, stdinText := malformedInput,
    stdinIsTTY := false, clipboardFlag := false, verifyFlag := false,
    clipboardWorks := false }

/-- Standard input carrying an empty object, no flags. -/
def sampleEnv : Env :=
  { filename := none, fileContent := fun _ => none, stdinText := "\x7b\x7d",
    stdinIsTTY := false, clipboardFlag := false, verifyFlag := false,
    clipboardWorks := false }

/-- A named file that the file system does not contain. -/
def missingEnv : Env :=
  { filename := some "creds.json", fileContent := fun _ => none, stdinText := "",
    stdinIsTTY := false, clipboardFlag := false, verifyFlag := false,
    clipboardWorks := false }

/-! ### The claims -/

/-- C1: the newline-escaping step (line 55) is a pure textual substitution
on the already-serialized compact string: for every string `T` — JSON or
not, and with no regard to whether an occurrence lies inside a JSON string
value, since the pass sees only the raw text — `T.replace('\n', '\\n')`
equals the single left-to-right non-overlapping pass that splits `T` at
each occurrence of the two-character substring backslash–n and rejoins the
fragments with the replacement backslash–backslash–n. -/
theorem c1_escape_textual_substitution (T : String) :
    pyStrReplace T "\\n" "\\\\n" = String.mk (joinWith nlRep (pySplit nlPat T.data)) := by
  unfold pyStrReplace
  have h1 : ("\\n" : String).data = nlPat := rfl
  have h2 : ("\\\\n" : String).data = nlRep := rfl
  rw [h1, h2, pyReplace_eq_joinWith_pySplit nlPat nlRep T.data (by simp [nlPat])]

/-- C2: for every string `T`, applying the escape substitution of line 55
and then the inverse substitution of line 144 yields back `T` exactly. -/
theorem c2_escape_unescape_roundtrip (T : String) :
    pyStrReplace (pyStrReplace T "\\n" "\\\\n") "\\\\n" "\\n" = T := by
  show String.mk (pyReplace nlRep nlPat (pyReplace nlPat nlRep T.data)) = T
  rw [show pyReplace nlPat nlRep T.data = escapeNewlines T.data from rfl]
  rw [show pyReplace nlRep nlPat (escapeNewlines T.data) =
    unescapeNewlines (escapeNewlines T.data) from rfl]
  rw [unescape_escape T.data, string_mk_data]

/-- C3: parsing the compact serialization of any document `D` yields a
value structurally equal to `D`: the round trip through compact
serialization preserves the document tree, key order included. -/
theorem c3_serialize_parse_roundtrip (D : Json) :
    parseJsonText (String.mk (serializeJson D)) = some D :=
  parseJsonText_serializeJson D

/-- C4 counterexample: the replacement written on line 55 is the
three-character sequence backslash–backslash–n, not a four-character one;
on the two-character input backslash–n (exactly one occurrence) the
escaped text has length 3, not 2 + 2·1 as the claim demands. -/
theorem c4_counterexample :
    pyStrReplace "\\n" "\\n" "\\\\n" = "\\\\n" ∧
    pyCount nlPat ("\\n" : String).data = 1 ∧
    (pyStrReplace "\\n" "\\n" "\\\\n").length ≠ ("\\n" : String).length + 2 * 1 := by
  refine ⟨rfl, rfl, by decide⟩

/-- C4 (amended): each replaced occurrence of backslash–n is replaced by
the three-character sequence backslash–backslash–n, so the length of the
escaped text is the original length plus one for each occurrence found by
the scan. -/
theorem c4_amended_length (T : String) :
    (pyStrReplace T "\\n" "\\\\n").length = T.length + pyCount nlPat T.data := by
  show (String.mk (escapeNewlines T.data)).length = T.length + pyCount nlPat T.data
  show (escapeNewlines T.data).length = T.data.length + pyCount nlPat T.data
  exact escapeNewlines_length T.data

/-- C5: whatever the pipeline returns is a single line — it contains no
raw newline character — and the compact serialization itself inserts no
whitespace: every whitespace character of the serialized text can only
come from a string (value or key) of the document, so a document whose
strings are whitespace-free serializes without any whitespace at all. -/
theorem c5_single_line (s out : String) (h : escape_json s = some out) :
    ('\n' ∉ out.data) ∧
    (∀ d, parseJsonText s = some d → jsonWsFree d = true →
      ∀ c ∈ serializeJson d, isJsonWs c = false) := by
  constructor
  · unfold escape_json at h
    cases hp : parseJsonText s with
    | none => rw [hp] at h; cases h
    | some d =>
      rw [hp] at h
      injection h with h
      subst h
      show '\n' ∉ escapeNewlines (serializeJson d)
      exact escapeNewlines_no_nl _ (serializeJson_no_nl d)
  · intro d _ hwf
    exact serializeJson_ws_free d hwf

/-- Witness for C5 at the concrete input `true`. -/
theorem c5_witness :
    ('\n' ∉ ("true" : String).data) ∧
    (∀ c ∈ serializeJson (Json.bool true), isJsonWs c = false) :=
  ⟨(c5_single_line "true" "true" rfl).1,
   (c5_single_line "true" "true" rfl).2 (Json.bool true) rfl rfl⟩

/-- C6: the transformation fails exactly when the input is not valid JSON
(in the model, when the parser returns `none`): on valid input
`escape_json` returns the escaped compact text without raising, on any
input it fails iff parsing fails, and on the malformed example input
`{"a":}` the parse fails and the program exits with code 1, printing the
invalid-JSON error (with the underlying decode message appended, abstracted
here) on the error stream and nothing on standard output. -/
theorem c6_fail_iff_invalid (s : String) (d : Json) (h : parseJsonText s = some d) :
    escape_json s = some (String.mk (escapeNewlines (serializeJson d))) ∧
    (∀ t, escape_json t = none ↔ parseJsonText t = none) ∧
    parseJsonText malformedInput = none ∧
    runMain malformedEnv =
      { exitCode := 1, stdout := [], stderr := [invalidJsonMsg, invalidJsonTip] } := by
  refine ⟨?_, ?_, rfl, rfl⟩
  · unfold escape_json
    rw [h]
  · intro t
    unfold escape_json
    cases parseJsonText t <;> simp

/-- Witness for C6 at the concrete valid input `null`. -/
theorem c6_witness :
    escape_json "null" = some (String.mk (escapeNewlines (serializeJson Json.null))) :=
  (c6_fail_iff_invalid "null" Json.null rfl).1

/-- C7: the optional verification step never aborts the program — with the
flag toggled and everything else equal, the exit code and standard output
are identical — and with verify enabled on valid input the success
confirmation goes to the error stream and the program still exits 0.  (The
warning branch only writes to the error stream by construction of
`runProcess`; on this pipeline it is in fact unreachable, because
un-escaping the escaped serialization re-parses successfully.) -/
theorem c7_verify_never_aborts (e : Env) :
    ((runMain { e with verifyFlag := true }).exitCode =
        (runMain { e with verifyFlag := false }).exitCode ∧
      (runMain { e with verifyFlag := true }).stdout =
        (runMain { e with verifyFlag := false }).stdout) ∧
    (∀ txt src d, acquireInput e = some (txt, src) →
      parseJsonText txt = some d → e.verifyFlag = true →
      verifyOkMsg ∈ (runMain e).stderr ∧ (runMain e).exitCode = 0) := by
  obtain ⟨fn, fc, stdin, tty, clip, ver, works⟩ := e
  constructor
  · show (runMain ⟨fn, fc, stdin, tty, clip, true, works⟩).exitCode =
        (runMain ⟨fn, fc, stdin, tty, clip, false, works⟩).exitCode ∧
      (runMain ⟨fn, fc, stdin, tty, clip, true, works⟩).stdout =
        (runMain ⟨fn, fc, stdin, tty, clip, false, works⟩).stdout
    have hacq : ∀ b : Bool, acquireInput ⟨fn, fc, stdin, tty, clip, b, works⟩ =
        acquireInput ⟨fn, fc, stdin, tty, clip, ver, works⟩ := fun _ => rfl
    unfold runMain
    rw [hacq true, hacq false]
    cases hA : acquireInput ⟨fn, fc, stdin, tty, clip, ver, works⟩ with
    | none => exact ⟨rfl, rfl⟩
    | some p =>
      obtain ⟨txt, src⟩ := p
      show (runProcess ⟨fn, fc, stdin, tty, clip, true, works⟩ txt src).exitCode =
          (runProcess ⟨fn, fc, stdin, tty, clip, false, works⟩ txt src).exitCode ∧
        (runProcess ⟨fn, fc, stdin, tty, clip, true, works⟩ txt src).stdout =
          (runProcess ⟨fn, fc, stdin, tty, clip, false, works⟩ txt src).stdout
      unfold runProcess
      cases hE : escape_json txt with
      | none => exact ⟨rfl, rfl⟩
      | some escaped =>
        cases clip <;> cases works <;> simp [copy_to_clipboard]
  · intro txt src d hA hp hv
    rw [runMain_acquired _ txt src hA]
    simp only at hv
    subst hv
    unfold runProcess
    have hE : escape_json txt = some (String.mk (escapeNewlines (serializeJson d))) := by
      unfold escape_json
      rw [hp]
    rw [hE]
    have hverify :
        parseJsonText (pyStrReplace (String.mk (escapeNewlines (serializeJson d)))
          "\\\\n" "\\n") = some d := by
      have hpat : ("\\\\n" : String).data = nlRep := rfl
      have hrep : ("\\n" : String).data = nlPat := rfl
      unfold pyStrReplace
      rw [hpat, hrep]
      have hconv : pyReplace nlRep nlPat (String.mk (escapeNewlines (serializeJson d))).data =
          unescapeNewlines (escapeNewlines (serializeJson d)) := rfl
      rw [hconv, unescape_escape]
      exact parseJsonText_serializeJson d
    simp only [hverify]
    cases clip <;> cases works <;> simp [copy_to_clipboard]

/-- Standard input carrying `null`, with verification enabled. -/
def verifyEnv : Env :=
  { filename := none, fileContent := fun _ => none, stdinText := "null",
    stdinIsTTY := false, clipboardFlag := false, verifyFlag := true,
    clipboardWorks := false }

/-- Witness for C7 at a concrete environment. -/
theorem c7_witness : verifyOkMsg ∈ (runMain verifyEnv).stderr ∧
    (runMain verifyEnv).exitCode = 0 :=
  (c7_verify_never_aborts verifyEnv).2 "null" "stdin" Json.null rfl rfl rfl

/-- C8: when the positional argument names a file that does not exist, the
program exits with code 1, prints nothing on standard output, and emits on
the error stream a message that contains the file name as a substring. -/
theorem c8_missing_file (e : Env) (f : String) (h₁ : e.filename = some f)
    (h₂ : f ≠ "-") (h₃ : e.fileContent f = none) :
    (runMain e).exitCode = 1 ∧ (runMain e).stdout = [] ∧
    ∃ m, m ∈ (runMain e).stderr ∧ ∃ u v, m.data = u ++ f.data ++ v := by
  have hA : acquireInput e = none := by
    unfold acquireInput
    rw [h₁]
    simp [h₂, h₃]
  have hout : runMain e =
      { exitCode := 1, stdout := [], stderr := [fileNotFoundMsg f] } := by
    unfold runMain
    rw [hA, h₁]
  rw [hout]
  refine ⟨rfl, rfl, fileNotFoundMsg f, by simp,
    ("❌ Error: File \x27" : String).data, ("\x27 not found" : String).data, ?_⟩
  show (("❌ Error: File \x27" ++ f) ++ "\x27 not found").data = _
  rw [String.data_append, String.data_append]

/-- Witness for C8 at a concrete environment. -/
theorem c8_witness : (runMain missingEnv).exitCode = 1 ∧
    (runMain missingEnv).stdout = [] ∧
    ∃ m, m ∈ (runMain missingEnv).stderr ∧
      ∃ u v, m.data = u ++ ("creds.json" : String).data ++ v :=
  c8_missing_file missingEnv "creds.json" rfl (by decide) rfl

/-- C9: once input is acquired, the result payload goes to standard output
unless clipboard mode succeeds — then nothing at all is printed on standard
output — with fallback printing of the payload when clipboard access
fails; every status, hint and error message of the processing phase goes
to the error stream, and on a parse failure standard output stays empty. -/
theorem c9_output_streams (e : Env) (txt src : String)
    (hA : acquireInput e = some (txt, src)) :
    (∀ out, escape_json txt = some out →
      ((runMain e).stdout =
        (if e.clipboardFlag = true ∧ e.clipboardWorks = true then [] else [out])) ∧
      (e.clipboardFlag = true → e.clipboardWorks = true →
        copiedMsg src ∈ (runMain e).stderr) ∧
      (e.clipboardFlag = true → e.clipboardWorks = false →
        clipboardWarn₁ ∈ (runMain e).stderr) ∧
      (e.clipboardFlag = false → processedMsg src ∈ (runMain e).stderr) ∧
      (runMain e).exitCode = 0) ∧
    (escape_json txt = none →
      (runMain e).stdout = [] ∧ invalidJsonMsg ∈ (runMain e).stderr ∧
      (runMain e).exitCode = 1) := by
  rw [runMain_acquired e txt src hA]
  obtain ⟨fn, fc, stdin, tty, clip, ver, works⟩ := e
  constructor
  · intro out hE
    unfold runProcess
    rw [hE]
    cases clip <;> cases works <;>
      simp [copy_to_clipboard, List.mem_append]
  · intro hE
    unfold runProcess
    rw [hE]
    exact ⟨rfl, by simp, rfl⟩

/-- Witness for C9 at a concrete environment. -/
theorem c9_witness :
    (runMain sampleEnv).stdout =
      (if sampleEnv.clipboardFlag = true ∧ sampleEnv.clipboardWorks = true
        then [] else ["\x7b\x7d"]) :=
  (((c9_output_streams sampleEnv "\x7b\x7d" "stdin" rfl).1 "\x7b\x7d" rfl).1)

/-- C10: `escape_json` is a pure function of its input — any two
evaluations on the same string give identical results, the output on valid
input is exactly the escaped compact serialization of the parsed document,
and object members are serialized precisely in the order of the
association list that parsing produced (insertion order), joined with
commas. -/
theorem c10_deterministic (s : String) (r₁ r₂ : Option String)
    (h₁ : escape_json s = r₁) (h₂ : escape_json s = r₂) :
    r₁ = r₂ ∧
    (∀ d, parseJsonText s = some d →
      escape_json s = some (String.mk (escapeNewlines (serializeJson d)))) ∧
    (∀ kvs, serializeMembers kvs = joinWith [','] (memberTexts kvs)) := by
  refine ⟨h₁.symm.trans h₂, ?_, serializeMembers_joinWith⟩
  intro d hp
  unfold escape_json
  rw [hp]

/-- Witness for C10 at a concrete input. -/
theorem c10_witness : escape_json "\x7b\x7d" =
    some (String.mk (escapeNewlines (serializeJson (Json.obj JObj.nil)))) :=
  (c10_deterministic "\x7b\x7d" (some "\x7b\x7d") (some "\x7b\x7d") rfl rfl).2.1
    (Json.obj JObj.nil) rfl
